import Mathlib

/-!
Verification of the photosorter file-organization engine (`sorter.py`).

The development is a shallow embedding of `sorter.py` on top of an explicit
filesystem model.  Paths are plain strings and the `posixpath` primitives
used by the source (`normpath`, `dirname`, `basename`, `splitext`, `join`)
are translated character by character from CPython's `posixpath` module.
External collaborators (the SHA-1 content hash, the EXIF tag reader, the
mtime clock) are modelled at their documented boundary: the hash is an
abstract parameter (the dedup claims assume it is collision free, which the
spec accepts as negligible risk), the EXIF reader is a per-path pair of
optional tag strings, and mtime is a per-path timestamp.
-/

namespace Photosorter

instance {ε α : Type} [DecidableEq ε] [DecidableEq α] : DecidableEq (Except ε α) := fun x y =>
  match x, y with
  | Except.ok a, Except.ok b =>
    if h : a = b then Decidable.isTrue (by rw [h])
    else Decidable.isFalse (fun hc => h (Except.ok.inj hc))
  | Except.ok _, Except.error _ => Decidable.isFalse (fun hc => Except.noConfusion hc)
  | Except.error _, Except.ok _ => Decidable.isFalse (fun hc => Except.noConfusion hc)
  | Except.error e, Except.error f =>
    if h : e = f then Decidable.isTrue (by rw [h])
    else Decidable.isFalse (fun hc => h (Except.error.inj hc))

/-! ### Generic list helpers -/

theorem mem_takeWhile {α : Type} (p : α → Bool) :
    ∀ (l : List α) (x : α), x ∈ l.takeWhile p → p x = true := by
  intro l
  induction l with
  | nil => intro x hx; simp [List.takeWhile] at hx
  | cons a t ih =>
    intro x hx
    by_cases ha : p a = true
    · rw [List.takeWhile_cons_of_pos ha] at hx
      rcases List.mem_cons.mp hx with h | h
      · exact h ▸ ha
      · exact ih x h
    · rw [List.takeWhile_cons_of_neg ha] at hx
      simp at hx

theorem takeWhile_append_all {α : Type} (p : α → Bool) (l₁ l₂ : List α)
    (h : ∀ x ∈ l₁, p x = true) :
    (l₁ ++ l₂).takeWhile p = l₁ ++ l₂.takeWhile p := by
  induction l₁ with
  | nil => simp
  | cons a t ih =>
    have ha : p a = true := h a (by simp)
    simp [List.takeWhile, ha]
    exact ih (fun x hx => h x (by simp [hx]))

theorem takeWhile_cons_of_neg {α : Type} (p : α → Bool) (a : α) (l : List α)
    (h : p a = false) : (a :: l).takeWhile p = [] := by
  simp [List.takeWhile, h]

theorem head_dropWhile_not {α : Type} (p : α → Bool) :
    ∀ (l : List α) (x : α), (l.dropWhile p).head? = some x → p x = false := by
  intro l
  induction l with
  | nil => intro x hx; simp [List.dropWhile] at hx
  | cons a t ih =>
    intro x hx
    by_cases ha : p a = true
    · rw [List.dropWhile_cons_of_pos ha] at hx
      exact ih x hx
    · rw [List.dropWhile_cons_of_neg ha] at hx
      simp at hx
      rw [← hx]
      exact Bool.not_eq_true _ |>.mp ha

theorem find?_eq_some_of_mem_nodup {α β : Type} [DecidableEq α]
    (l : List (α × β)) (hnd : (l.map Prod.fst).Nodup) (k : α) (v : β)
    (hm : (k, v) ∈ l) : l.find? (fun e => e.1 = k) = some (k, v) := by
  induction l with
  | nil => simp at hm
  | cons a t ih =>
    simp only [List.map_cons, List.nodup_cons] at hnd
    rcases List.mem_cons.mp hm with h | h
    · subst h
      simp [List.find?]
    · have hne : a.1 ≠ k := by
        intro he
        exact hnd.1 (he ▸ (List.mem_map.mpr ⟨(k, v), h, rfl⟩))
      have : (decide (a.1 = k)) = false := by simp [hne]
      simp only [List.find?, this]
      exact ih hnd.2 h

/-! ### Decimal rendering of natural numbers

Models CPython's `'%i' % n` formatting for the nonnegative integers that
appear in the source (collision counters, timestamp fields). -/

def digitChar (d : Nat) : Char :=
  match d with
  | 0 => '0' | 1 => '1' | 2 => '2' | 3 => '3' | 4 => '4'
  | 5 => '5' | 6 => '6' | 7 => '7' | 8 => '8' | 9 => '9'
  | _ => '*'

def charVal (c : Char) : Nat :=
  if c = '0' then 0 else if c = '1' then 1 else if c = '2' then 2
  else if c = '3' then 3 else if c = '4' then 4 else if c = '5' then 5
  else if c = '6' then 6 else if c = '7' then 7 else if c = '8' then 8
  else if c = '9' then 9 else 10

def natReprAux : Nat → Nat → List Char
  | 0, _ => []
  | fuel + 1, n =>
    if n < 10 then [digitChar n]
    else natReprAux fuel (n / 10) ++ [digitChar (n % 10)]

/-- Decimal rendering of a natural number (CPython `'%i'` formatting). -/
def natRepr (n : Nat) : String := ⟨natReprAux (n + 1) n⟩

def digitsVal (l : List Char) : Nat := l.foldl (fun acc c => acc * 10 + charVal c) 0

theorem digitsVal_append_singleton (l : List Char) (c : Char) :
    digitsVal (l ++ [c]) = digitsVal l * 10 + charVal c := by
  simp [digitsVal, List.foldl_append]

theorem charVal_digitChar {d : Nat} (h : d < 10) : charVal (digitChar d) = d := by
  interval_cases d <;> decide

theorem digitsVal_natReprAux :
    ∀ (fuel n : Nat), n < 10 ^ fuel → digitsVal (natReprAux fuel n) = n := by
  intro fuel
  induction fuel with
  | zero =>
    intro n h
    simp [Nat.lt_one_iff] at h
    simp [natReprAux, digitsVal, h]
  | succ f ih =>
    intro n h
    by_cases hn : n < 10
    · simp [natReprAux, hn, digitsVal, charVal_digitChar hn]
    · have hd : n / 10 < 10 ^ f := by
        apply Nat.div_lt_of_lt_mul
        calc n < 10 ^ (f + 1) := h
        _ = 10 * 10 ^ f := by ring
      simp only [natReprAux, if_neg (by omega : ¬ n < 10)]
      rw [digitsVal_append_singleton, ih (n / 10) hd,
        charVal_digitChar (Nat.mod_lt _ (by norm_num))]
      omega

theorem lt_ten_pow_succ (n : Nat) : n < 10 ^ (n + 1) := by
  have h := Nat.lt_pow_self (show 1 < 10 by norm_num) (n + 1)
  omega

theorem digitsVal_natRepr (n : Nat) : digitsVal (natRepr n).data = n :=
  digitsVal_natReprAux (n + 1) n (lt_ten_pow_succ n)

theorem natRepr_injective : Function.Injective natRepr := by
  intro a b h
  have := congrArg (fun s => digitsVal (String.data s)) h
  simpa [digitsVal_natRepr] using this

theorem mem_natReprAux_digit :
    ∀ (fuel n : Nat) (c : Char), c ∈ natReprAux fuel n → ∃ d, d < 10 ∧ c = digitChar d := by
  intro fuel
  induction fuel with
  | zero => intro n c hc; simp [natReprAux] at hc
  | succ f ih =>
    intro n c hc
    by_cases hn : n < 10
    · simp [natReprAux, hn] at hc
      exact ⟨n, hn, hc⟩
    · simp only [natReprAux, if_neg hn, List.mem_append, List.mem_singleton] at hc
      rcases hc with h | h
      · exact ih _ c h
      · exact ⟨n % 10, Nat.mod_lt _ (by norm_num), h⟩

theorem digitChar_ne_slash {d : Nat} (h : d < 10) : digitChar d ≠ '/' := by
  interval_cases d <;> decide

theorem slash_not_mem_natRepr (n : Nat) : '/' ∉ (natRepr n).data := by
  intro hmem
  rcases mem_natReprAux_digit (n + 1) n _ hmem with ⟨d, hd, hc⟩
  exact digitChar_ne_slash hd hc.symm

theorem natRepr_ne_empty (n : Nat) : (natRepr n).data ≠ [] := by
  show natReprAux (n + 1) n ≠ []
  by_cases hn : n < 10 <;> simp [natReprAux, hn]

/-- Zero-padded two-digit rendering (CPython `strftime` `%m`, `%d`, `%H`,
`%M`, `%S` fields; the fields are range-validated so they have at most two
digits). -/
def pad2 (n : Nat) : String := if n < 10 then "0" ++ natRepr n else natRepr n

/-! ### posixpath primitives

Character-by-character translations of the CPython `posixpath` functions the
source uses: `join`, `basename`, `dirname`, `splitext`, `normpath`. -/

def isSlash (c : Char) : Bool := c = '/'

def isDot (c : Char) : Bool := c = '.'

/-- Translation of `posixpath.join(a, b)` for two arguments: if `b` is absolute it wins;
otherwise the parts are glued with a single separator unless `a` is empty or
already ends in one. -/
def joinPath (a b : String) : String :=
  if b.data.head? = some '/' then b
  else if a.data = [] ∨ a.data.reverse.head? = some '/' then a ++ b
  else a ++ "/" ++ b

/-- Translation of `posixpath.basename(p)`: everything after the last slash. -/
def basename (p : String) : String :=
  ⟨(p.data.reverse.takeWhile (fun c => !isSlash c)).reverse⟩

/-- Translation of `posixpath.dirname(p)`: everything up to the last slash, with trailing
slashes stripped unless the head is made of slashes only. -/
def dirname (p : String) : String :=
  let head := (p.data.reverse.dropWhile (fun c => !isSlash c)).reverse
  if head = [] then ""
  else if head.all isSlash then ⟨head⟩
  else ⟨(head.reverse.dropWhile isSlash).reverse⟩

/-- Translation of `posixpath.splitext(p)`: split off the extension at the last dot of the
final component, unless the dot-free part of that component before it is
empty or made of dots only (leading dots do not start an extension). -/
def splitext (p : String) : String × String :=
  let nameRev := p.data.reverse.takeWhile (fun c => !isSlash c)
  let extRev := nameRev.takeWhile (fun c => !isDot c)
  if extRev.length = nameRev.length then (p, "")
  else if (nameRev.drop (extRev.length + 1)).all isDot then (p, "")
  else (⟨p.data.take (p.data.length - (extRev.length + 1))⟩, ⟨'.' :: extRev.reverse⟩)

/-- Translation of `str.split('/')`: split at every separator, keeping empty pieces. -/
def splitChar (sep : Char) : List Char → List (List Char)
  | [] => [[]]
  | c :: cs =>
    match splitChar sep cs with
    | [] => [[]]
    | h :: t => if c = sep then [] :: h :: t else (c :: h) :: t

/-- One step of `posixpath.normpath`'s component scan.  `acc` holds the kept
components in reverse order, so Python's append/pop at the tail become
cons/tail at the head. -/
def npStep (slashes : Nat) (acc : List (List Char)) (comp : List Char) : List (List Char) :=
  if comp = [] ∨ comp = ['.'] then acc
  else if comp ≠ ['.', '.'] ∨ (slashes = 0 ∧ acc = []) ∨ acc.head? = some ['.', '.'] then
    comp :: acc
  else acc.tail

/-- Translation of `'/'.join(pieces)` on character lists. -/
def joinSlash : List (List Char) → List Char
  | [] => []
  | [x] => x
  | x :: y :: t => x ++ '/' :: joinSlash (y :: t)

/-- Translation of `posixpath.normpath(p)`. -/
def normpath (p : String) : String :=
  if p.data = [] then "." else
  let slashes : Nat :=
    if p.data.head? = some '/' then
      if p.data.take 2 = ['/', '/'] ∧ ¬p.data.take 3 = ['/', '/', '/'] then 2 else 1
    else 0
  let comps := (splitChar '/' p.data).foldl (npStep slashes) []
  let res := List.replicate slashes '/' ++ joinSlash comps.reverse
  if res = [] then "." else ⟨res⟩

/-- A string that is safe as the left operand of `joinPath` with respect to
`dirname`: empty, all slashes, or not ending in a slash.  Both `dirname` and
`normpath` only produce such strings. -/
def saneDir (a : String) : Bool :=
  a.data.isEmpty || a.data.all isSlash || !(decide (a.data.reverse.head? = some '/'))

/-! ### Lemmas about the posixpath primitives -/

theorem slash_mem_of_ends_slash {l : List Char} (h : l.reverse.head? = some '/') :
    '/' ∈ l := by
  cases hr : l.reverse with
  | nil => rw [hr] at h; simp at h
  | cons c t =>
    rw [hr] at h
    simp at h
    have : c ∈ l.reverse := by rw [hr]; simp
    rw [← h]
    exact List.mem_reverse.mp this

theorem dropWhile_append_all {α : Type} (p : α → Bool) (l₁ l₂ : List α)
    (h : ∀ x ∈ l₁, p x = true) :
    (l₁ ++ l₂).dropWhile p = l₂.dropWhile p := by
  induction l₁ with
  | nil => simp
  | cons a t ih =>
    rw [List.cons_append, List.dropWhile_cons_of_pos (h a (by simp))]
    exact ih (fun x hx => h x (by simp [hx]))

theorem notSlash_all_of_slashFree {b : String} (hb : '/' ∉ b.data) :
    ∀ c ∈ b.data.reverse, (fun c => !isSlash c) c = true := by
  intro c hc
  have : c ∈ b.data := List.mem_reverse.mp hc
  simp [isSlash]
  intro he
  exact hb (he ▸ this)

theorem join_not_absolute {b : String} (hb : '/' ∉ b.data) :
    ¬b.data.head? = some '/' := by
  intro h1
  cases hd : b.data with
  | nil => rw [hd] at h1; simp at h1
  | cons c t =>
    rw [hd] at h1
    simp at h1
    exact hb (by rw [hd, h1]; simp)

theorem saneDir_cases {a : String} (ha : saneDir a = true) :
    a.data = [] ∨ a.data.all isSlash = true ∨ ¬a.data.reverse.head? = some '/' := by
  rcases (Bool.or_eq_true _ _).mp ha with h | h
  · rcases (Bool.or_eq_true _ _).mp h with h | h
    · exact Or.inl (by simpa using h)
    · exact Or.inr (Or.inl h)
  · exact Or.inr (Or.inr (by simpa using h))

theorem basename_join (a b : String) (hb : '/' ∉ b.data) :
    basename (joinPath a b) = b := by
  have hall := notSlash_all_of_slashFree hb
  have hbb : (b.data.reverse.takeWhile (fun c => !isSlash c)) = b.data.reverse := by
    have := takeWhile_append_all (fun c => !isSlash c) b.data.reverse [] hall
    simpa using this
  unfold joinPath
  rw [if_neg (join_not_absolute hb)]
  by_cases h2 : a.data = [] ∨ a.data.reverse.head? = some '/'
  · rw [if_pos h2]
    apply String.ext
    show ((a ++ b).data.reverse.takeWhile fun c => !isSlash c).reverse = b.data
    rw [String.data_append, List.reverse_append]
    rcases h2 with h2 | h2
    · simp [h2, hbb]
    · cases hr : a.data.reverse with
      | nil => simp [hr, hbb]
      | cons c t =>
        rw [hr] at h2
        simp at h2
        subst h2
        rw [takeWhile_append_all _ _ _ hall,
          takeWhile_cons_of_neg _ _ _ (by simp [isSlash])]
        simp
  · rw [if_neg h2]
    apply String.ext
    show ((a ++ "/" ++ b).data.reverse.takeWhile fun c => !isSlash c).reverse = b.data
    rw [String.data_append, String.data_append, List.reverse_append, List.reverse_append]
    have hslash : ("/" : String).data.reverse = ['/'] := by decide
    rw [hslash, takeWhile_append_all _ _ _ hall, List.cons_append,
      takeWhile_cons_of_neg _ _ _ (by simp [isSlash])]
    simp

theorem basename_slashFree (p : String) : '/' ∉ (basename p).data := by
  intro h
  have h2 : '/' ∈ p.data.reverse.takeWhile (fun c => !isSlash c) := by
    have : (basename p).data = (p.data.reverse.takeWhile (fun c => !isSlash c)).reverse := rfl
    rw [this] at h
    exact List.mem_reverse.mp h
  have := mem_takeWhile _ _ _ h2
  simp [isSlash] at this

theorem dirname_join (a b : String) (ha : saneDir a = true) (hb : '/' ∉ b.data) :
    dirname (joinPath a b) = a := by
  have hall := notSlash_all_of_slashFree hb
  unfold joinPath
  rw [if_neg (join_not_absolute hb)]
  by_cases h2 : a.data = [] ∨ a.data.reverse.head? = some '/'
  · rw [if_pos h2]
    rcases h2 with h2 | h2
    · -- a is empty: join = b, whose reverse is consumed entirely.
      unfold dirname
      have : (a ++ b).data.reverse.dropWhile (fun c => !isSlash c) = [] := by
        rw [String.data_append, h2, List.nil_append]
        have := dropWhile_append_all (fun c => !isSlash c) b.data.reverse [] hall
        simpa using this
      rw [this]
      simp
      exact (String.ext (show ("" : String).data = a.data by simp [h2])).symm ▸ rfl
    · -- a ends in a slash; with `saneDir` it must be all slashes.
      cases hr : a.data.reverse with
      | nil =>
        exfalso
        rw [hr] at h2
        simp at h2
      | cons c t =>
        rw [hr] at h2
        simp at h2
        subst h2
        have hdrop : (a ++ b).data.reverse.dropWhile (fun c => !isSlash c) = a.data.reverse := by
          rw [String.data_append, List.reverse_append, dropWhile_append_all _ _ _ hall, hr,
            List.dropWhile_cons_of_neg (by simp [isSlash])]
        have hAllSlash : a.data.all isSlash = true := by
          rcases saneDir_cases ha with h | h | h
          · rw [h] at hr; simp at hr
          · exact h
          · exfalso; rw [hr] at h; simp at h
        unfold dirname
        rw [hdrop, List.reverse_reverse]
        have hne : ¬a.data = [] := by
          intro h
          rw [h] at hr
          simp at hr
        rw [if_neg hne, if_pos hAllSlash]
  · rw [if_neg h2]
    push_neg at h2
    obtain ⟨hne, hnoslash⟩ := h2
    have hdrop : (a ++ "/" ++ b).data.reverse.dropWhile (fun c => !isSlash c)
        = '/' :: a.data.reverse := by
      rw [String.data_append, String.data_append, List.reverse_append, List.reverse_append]
      have hslash : ("/" : String).data.reverse = ['/'] := by decide
      rw [hslash, dropWhile_append_all _ _ _ hall, List.cons_append,
        List.dropWhile_cons_of_neg (by simp [isSlash])]
      simp
    unfold dirname
    rw [hdrop]
    have hlastne : ∃ c t, a.data.reverse = c :: t ∧ ¬c = '/' := by
      cases hr : a.data.reverse with
      | nil =>
        exfalso
        apply hne
        have := congrArg List.reverse hr
        simpa using this
      | cons c t =>
        refine ⟨c, t, rfl, ?_⟩
        intro hc
        rw [hr, hc] at hnoslash
        simp at hnoslash
    obtain ⟨c, t, hr, hc⟩ := hlastne
    have hnotall : ¬(('/' :: a.data.reverse).reverse.all isSlash = true) := by
      intro h
      rw [List.all_eq_true] at h
      have : isSlash c = true := h c (by rw [List.mem_reverse, hr]; simp)
      simp [isSlash, hc] at this
    have hcons : ¬(('/' :: a.data.reverse).reverse = []) := by simp
    rw [if_neg hcons, if_neg hnotall]
    apply String.ext
    show (('/' :: a.data.reverse).reverse.reverse.dropWhile isSlash).reverse = a.data
    rw [List.reverse_reverse, List.dropWhile_cons_of_pos (by simp [isSlash]), hr,
      List.dropWhile_cons_of_neg (by simp [isSlash, hc]), ← hr]
    simp

theorem takeWhile_decomp {α : Type} (q : α → Bool) :
    ∀ l : List α, (l.takeWhile q).length < l.length →
      ∃ c rest, l = l.takeWhile q ++ c :: rest ∧ q c = false := by
  intro l
  induction l with
  | nil => intro h; simp at h
  | cons a t ih =>
    intro h
    by_cases ha : q a = true
    · rw [List.takeWhile_cons_of_pos ha] at h ⊢
      simp only [List.length_cons] at h
      obtain ⟨c, rest, hd, hq⟩ := ih (by omega)
      exact ⟨c, rest, by rw [List.cons_append, ← hd], hq⟩
    · rw [List.takeWhile_cons_of_neg ha]
      exact ⟨a, t, by simp, by simpa using ha⟩

theorem head?_append_left {α : Type} {l₁ : List α} (l₂ : List α) {a : α}
    (h : l₁.head? = some a) : (l₁ ++ l₂).head? = some a := by
  cases l₁ with
  | nil => simp at h
  | cons x t => simpa using h

theorem head?_mem {α : Type} {l : List α} {a : α} (h : l.head? = some a) : a ∈ l := by
  cases l with
  | nil => simp at h
  | cons x t =>
    simp at h
    rw [h]
    simp

/-- If the extension is nonempty, the reversed input decomposes at the dot. -/
theorem splitext_decomp (p : String)
    (h1 : ¬((p.data.reverse.takeWhile (fun c => !isSlash c)).takeWhile
        (fun c => !isDot c)).length = (p.data.reverse.takeWhile (fun c => !isSlash c)).length) :
    ∃ R, p.data.reverse = (p.data.reverse.takeWhile (fun c => !isSlash c)).takeWhile
        (fun c => !isDot c) ++ '.' :: R := by
  set nameRev := p.data.reverse.takeWhile (fun c => !isSlash c) with hname
  set extRev := nameRev.takeWhile (fun c => !isDot c) with hext
  have hlt : extRev.length < nameRev.length :=
    Nat.lt_of_le_of_ne ((List.takeWhile_prefix _).length_le) h1
  obtain ⟨c, rest, hdec, hqc⟩ := takeWhile_decomp (fun c => !isDot c) nameRev hlt
  have hcdot : c = '.' := by simpa [isDot] using hqc
  refine ⟨rest ++ p.data.reverse.dropWhile (fun c => !isSlash c), ?_⟩
  conv_lhs => rw [← List.takeWhile_append_dropWhile (fun c => !isSlash c) p.data.reverse]
  rw [← hname]
  conv_lhs => rw [hdec]
  rw [← hext, hcdot]
  simp

/-- Splitting off the extension and gluing it back yields the input. -/
theorem splitext_concat (p : String) : (splitext p).1 ++ (splitext p).2 = p := by
  unfold splitext
  by_cases h1 : ((p.data.reverse.takeWhile (fun c => !isSlash c)).takeWhile
      (fun c => !isDot c)).length = (p.data.reverse.takeWhile (fun c => !isSlash c)).length
  · simp only [if_pos h1]
    apply String.ext
    rw [String.data_append]
    simp
  · simp only [if_neg h1]
    by_cases h2 : ((p.data.reverse.takeWhile (fun c => !isSlash c)).drop
        (((p.data.reverse.takeWhile (fun c => !isSlash c)).takeWhile
          (fun c => !isDot c)).length + 1)).all isDot = true
    · simp only [if_pos h2]
      apply String.ext
      rw [String.data_append]
      simp
    · simp only [if_neg h2]
      apply String.ext
      rw [String.data_append]
      obtain ⟨R, hR⟩ := splitext_decomp p h1
      set extRev := (p.data.reverse.takeWhile (fun c => !isSlash c)).takeWhile
        (fun c => !isDot c) with hext
      have hp : p.data = R.reverse ++ '.' :: extRev.reverse := by
        have := congrArg List.reverse hR
        rw [List.reverse_reverse] at this
        rw [this]
        simp
      show p.data.take (p.data.length - (extRev.length + 1)) ++ '.' :: extRev.reverse = p.data
      rw [hp]
      have hlen : (R.reverse ++ '.' :: extRev.reverse).length - (extRev.length + 1)
          = R.reverse.length := by
        simp
      rw [hlen, List.take_left]

/-- The extension returned by `splitext` contains no slash. -/
theorem splitext_snd_slashFree (p : String) : '/' ∉ (splitext p).2.data := by
  unfold splitext
  by_cases h1 : ((p.data.reverse.takeWhile (fun c => !isSlash c)).takeWhile
      (fun c => !isDot c)).length = (p.data.reverse.takeWhile (fun c => !isSlash c)).length
  · simp only [if_pos h1]
    intro h
    simp at h
  · simp only [if_neg h1]
    by_cases h2 : ((p.data.reverse.takeWhile (fun c => !isSlash c)).drop
        (((p.data.reverse.takeWhile (fun c => !isSlash c)).takeWhile
          (fun c => !isDot c)).length + 1)).all isDot = true
    · simp only [if_pos h2]
      intro h
      simp at h
    · simp only [if_neg h2]
      intro h
      simp only [List.mem_cons] at h
      rcases h with h | h
      · simp at h
      · have h3 : '/' ∈ (p.data.reverse.takeWhile (fun c => !isSlash c)).takeWhile
            (fun c => !isDot c) := List.mem_reverse.mp h
        have h4 : '/' ∈ p.data.reverse.takeWhile (fun c => !isSlash c) :=
          (List.takeWhile_prefix _).subset h3
        have := mem_takeWhile _ _ _ h4
        simp [isSlash] at this

/-- The root returned by `splitext` uses only characters of the input. -/
theorem splitext_fst_subset (p : String) : (splitext p).1.data ⊆ p.data := by
  unfold splitext
  by_cases h1 : ((p.data.reverse.takeWhile (fun c => !isSlash c)).takeWhile
      (fun c => !isDot c)).length = (p.data.reverse.takeWhile (fun c => !isSlash c)).length
  · simp only [if_pos h1]
    exact fun x hx => hx
  · simp only [if_neg h1]
    by_cases h2 : ((p.data.reverse.takeWhile (fun c => !isSlash c)).drop
        (((p.data.reverse.takeWhile (fun c => !isSlash c)).takeWhile
          (fun c => !isDot c)).length + 1)).all isDot = true
    · simp only [if_pos h2]
      exact fun x hx => hx
    · simp only [if_neg h2]
      exact List.take_subset _ _

/-- The function `dirname` never produces a string that ends in a slash unless it is all
slashes, so its output is always a safe left operand for `joinPath`. -/
theorem dirname_sane (p : String) : saneDir (dirname p) = true := by
  unfold dirname
  by_cases h1 : (p.data.reverse.dropWhile (fun c => !isSlash c)).reverse = []
  · rw [if_pos h1]
    decide
  · rw [if_neg h1]
    by_cases h2 : (p.data.reverse.dropWhile (fun c => !isSlash c)).reverse.all isSlash = true
    · rw [if_pos h2]
      unfold saneDir
      apply (Bool.or_eq_true _ _).mpr
      exact Or.inl ((Bool.or_eq_true _ _).mpr (Or.inr h2))
    · rw [if_neg h2]
      unfold saneDir
      apply (Bool.or_eq_true _ _).mpr
      set head := (p.data.reverse.dropWhile (fun c => !isSlash c)).reverse with hh
      cases hy : (head.reverse.dropWhile isSlash).head? with
      | none =>
        refine Or.inl ((Bool.or_eq_true _ _).mpr (Or.inl ?_))
        have : head.reverse.dropWhile isSlash = [] := by
          cases hz : head.reverse.dropWhile isSlash with
          | nil => rfl
          | cons c t => rw [hz] at hy; simp at hy
        simp [this]
      | some c =>
        refine Or.inr ?_
        have hc : isSlash c = false := head_dropWhile_not _ _ _ hy
        have : ((head.reverse.dropWhile isSlash).reverse : List Char).reverse.head? = some c := by
          rw [List.reverse_reverse]
          exact hy
        simp only [String.data]
        rw [this]
        simp [isSlash] at hc
        simp [hc]

/-- The function `splitChar` never returns an empty list of pieces. -/
theorem splitChar_ne_nil (sep : Char) : ∀ l : List Char, splitChar sep l ≠ [] := by
  intro l
  induction l with
  | nil => simp [splitChar]
  | cons c cs ih =>
    unfold splitChar
    cases h : splitChar sep cs with
    | nil => simp
    | cons x t =>
      by_cases hc : c = sep <;> simp [hc]

/-- Pieces produced by `splitChar` never contain the separator. -/
theorem splitChar_sep_free (sep : Char) :
    ∀ (l : List Char) (piece : List Char), piece ∈ splitChar sep l → sep ∉ piece := by
  intro l
  induction l with
  | nil =>
    intro piece hp
    simp [splitChar] at hp
    simp [hp]
  | cons c cs ih =>
    intro piece hp
    unfold splitChar at hp
    cases h : splitChar sep cs with
    | nil => exact absurd h (splitChar_ne_nil sep cs)
    | cons x t =>
      rw [h] at hp
      by_cases hc : c = sep
      · simp [hc] at hp
        rcases hp with hp | hp | hp
        · simp [hp]
        · exact hp ▸ ih x (by rw [h]; simp)
        · exact ih piece (by rw [h]; simp [hp])
      · simp [hc] at hp
        rcases hp with hp | hp
        · rw [hp]
          intro hmem
          rcases List.mem_cons.mp hmem with hm | hm
          · exact hc hm.symm
          · exact ih x (by rw [h]; simp) hm
        · exact ih piece (by rw [h]; simp [hp])

/-- The component accumulator of `normpath` only ever holds nonempty,
slash-free components. -/
theorem npFoldl_inv (slashes : Nat) :
    ∀ (comps : List (List Char)) (acc : List (List Char)),
      (∀ x ∈ acc, x ≠ [] ∧ '/' ∉ x) → (∀ x ∈ comps, '/' ∉ x) →
      ∀ x ∈ comps.foldl (npStep slashes) acc, x ≠ [] ∧ '/' ∉ x := by
  intro comps
  induction comps with
  | nil => intro acc hacc _ x hx; exact hacc x hx
  | cons c cs ih =>
    intro acc hacc hcomps x hx
    rw [List.foldl_cons] at hx
    refine ih (npStep slashes acc c) ?_ (fun y hy => hcomps y (by simp [hy])) x hx
    intro y hy
    unfold npStep at hy
    by_cases hskip : c = [] ∨ c = ['.']
    · rw [if_pos hskip] at hy
      exact hacc y hy
    · rw [if_neg hskip] at hy
      by_cases hpush : ¬c = ['.', '.'] ∨ (slashes = 0 ∧ acc = []) ∨ acc.head? = some ['.', '.']
      · rw [if_pos hpush] at hy
        rcases List.mem_cons.mp hy with hm | hm
        · subst hm
          push_neg at hskip
          exact ⟨hskip.1, hcomps y (by simp)⟩
        · exact hacc y hm
      · rw [if_neg hpush] at hy
        exact hacc y (List.mem_of_mem_tail hy)

/-- Joining nonempty slash-free pieces gives a string whose last character is
not a slash. -/
theorem joinSlash_ends :
    ∀ pieces : List (List Char), pieces ≠ [] → (∀ x ∈ pieces, x ≠ [] ∧ '/' ∉ x) →
      ∃ c, (joinSlash pieces).reverse.head? = some c ∧ ¬c = '/' := by
  intro pieces
  induction pieces with
  | nil => intro h; exact absurd rfl h
  | cons x ys ih =>
    intro _ hall
    cases ys with
    | nil =>
      obtain ⟨hx, hsl⟩ := hall x (by simp)
      cases hr : x.reverse with
      | nil => exact absurd (by simpa using congrArg List.reverse hr) hx
      | cons c t =>
        refine ⟨c, ?_, ?_⟩
        · show x.reverse.head? = some c
          rw [hr]; rfl
        · intro hc
          apply hsl
          rw [← List.mem_reverse, hr, hc]
          simp
    | cons y t =>
      obtain ⟨c, hc, hcs⟩ := ih (by simp) (fun z hz => hall z (by simp [List.mem_cons] at hz ⊢; tauto))
      refine ⟨c, ?_, hcs⟩
      show ((x ++ '/' :: joinSlash (y :: t)).reverse).head? = some c
      rw [List.reverse_append, List.reverse_cons]
      rw [List.append_assoc]
      exact head?_append_left _ hc

/-- The function `normpath` never returns the empty string. -/
theorem normpath_ne_empty (p : String) : (normpath p).data ≠ [] := by
  unfold normpath
  by_cases h0 : p.data = []
  · rw [if_pos h0]
    decide
  · rw [if_neg h0]
    set slashes : Nat :=
      (if p.data.head? = some '/' then
        if p.data.take 2 = ['/', '/'] ∧ ¬p.data.take 3 = ['/', '/', '/'] then 2 else 1
      else 0) with hsl
    set comps := (splitChar '/' p.data).foldl (npStep slashes) [] with hcomps
    by_cases h1 : List.replicate slashes '/' ++ joinSlash comps.reverse = []
    · rw [if_pos h1]
      decide
    · rw [if_neg h1]
      exact h1

/-- The output of `normpath` is a safe left operand for `joinPath`. -/
theorem normpath_sane (p : String) : saneDir (normpath p) = true := by
  unfold normpath
  by_cases h0 : p.data = []
  · rw [if_pos h0]
    decide
  · rw [if_neg h0]
    set slashes : Nat :=
      (if p.data.head? = some '/' then
        if p.data.take 2 = ['/', '/'] ∧ ¬p.data.take 3 = ['/', '/', '/'] then 2 else 1
      else 0) with hsl
    set comps := (splitChar '/' p.data).foldl (npStep slashes) [] with hcomps
    have hinv : ∀ x ∈ comps, x ≠ [] ∧ '/' ∉ x := by
      rw [hcomps]
      exact npFoldl_inv slashes _ [] (by simp) (splitChar_sep_free '/' p.data)
    by_cases h1 : List.replicate slashes '/' ++ joinSlash comps.reverse = []
    · rw [if_pos h1]
      decide
    · rw [if_neg h1]
      by_cases hcr : comps.reverse = []
      · -- Body empty: result is a run of slashes.
        rw [hcr]
        unfold saneDir
        apply (Bool.or_eq_true _ _).mpr
        refine Or.inl ((Bool.or_eq_true _ _).mpr (Or.inr ?_))
        simp only [String.data]
        rw [List.all_eq_true]
        intro x hx
        simp only [joinSlash, List.append_nil] at hx
        have := List.eq_of_mem_replicate hx
        simp [isSlash, this]
      · obtain ⟨c, hc, hcs⟩ := joinSlash_ends comps.reverse hcr
          (fun x hx => hinv x (List.mem_reverse.mp hx))
        unfold saneDir
        apply (Bool.or_eq_true _ _).mpr
        refine Or.inr ?_
        simp only [String.data]
        rw [List.reverse_append]
        rw [head?_append_left _ hc]
        simp [hcs]

/-- When neither side forces a branch, `joinPath` is plain gluing. -/
theorem join_eq_append (a b : String) (hne : ¬a.data = [])
    (hnosl : ¬a.data.reverse.head? = some '/') (hb : ¬b.data.head? = some '/') :
    joinPath a b = a ++ "/" ++ b := by
  unfold joinPath
  rw [if_neg hb, if_neg (by tauto)]

/-- Joining onto a nonempty folder always yields a path containing a slash. -/
theorem join_has_slash (a b : String) (ha : ¬a.data = []) (hb : '/' ∉ b.data) :
    '/' ∈ (joinPath a b).data := by
  unfold joinPath
  rw [if_neg (join_not_absolute hb)]
  by_cases h2 : a.data = [] ∨ a.data.reverse.head? = some '/'
  · rw [if_pos h2]
    rcases h2 with h2 | h2
    · exact absurd h2 ha
    · rw [String.data_append]
      exact List.mem_append.mpr (Or.inl (slash_mem_of_ends_slash h2))
  · rw [if_neg h2]
    rw [String.data_append, String.data_append]
    refine List.mem_append.mpr (Or.inl ?_)
    refine List.mem_append.mpr (Or.inr ?_)
    decide

/-- On slash-free right operands, `joinPath` with a fixed folder is
injective. -/
theorem join_right_injective (a b₁ b₂ : String) (h1 : '/' ∉ b₁.data)
    (h2 : '/' ∉ b₂.data) (h : joinPath a b₁ = joinPath a b₂) : b₁ = b₂ := by
  unfold joinPath at h
  rw [if_neg (join_not_absolute h1), if_neg (join_not_absolute h2)] at h
  by_cases hc : a.data = [] ∨ a.data.reverse.head? = some '/'
  · rw [if_pos hc, if_pos hc] at h
    have := congrArg String.data h
    rw [String.data_append, String.data_append] at this
    exact String.ext (List.append_cancel_left this)
  · rw [if_neg hc, if_neg hc] at h
    have := congrArg String.data h
    rw [String.data_append, String.data_append, String.data_append, String.data_append,
      List.append_assoc, List.append_assoc] at this
    exact String.ext (List.append_cancel_left (List.append_cancel_left this))

/-! ### Filesystem model

A `World` maps folder paths to their (file-name, byte-content) entries and
carries the two external per-path oracles the source consults: the EXIF tag
reader (`exifread.process_file`, restricted to the two tags the source looks
at) and the mtime clock (`os.path.getmtime` composed with
`datetime.fromtimestamp`). -/

abbrev Content := List Nat

structure ExifTags where
  dateTimeOriginal : Option String
  dateTimeDigitized : Option String

structure DateTime where
  year : Nat
  month : Nat
  day : Nat
  hour : Nat
  minute : Nat
  second : Nat
deriving DecidableEq

structure World where
  folders : List (String × List (String × Content))
  exif : String → ExifTags
  mtime : String → DateTime

def entriesOf (w : World) (folder : String) : List (String × Content) :=
  match w.folders.find? (fun e => e.1 = folder) with
  | some e => e.2
  | none => []

def hasFolder (w : World) (folder : String) : Bool :=
  (w.folders.find? (fun e => e.1 = folder)).isSome

/-- Translation of `os.listdir`; `none` models the OSError raised for a missing or
unreadable folder. -/
def listdir (w : World) (folder : String) : Option (List String) :=
  match w.folders.find? (fun e => e.1 = folder) with
  | some e => some (e.2.map Prod.fst)
  | none => none

/-- Byte content of the file at `p`, resolved through its folder and name. -/
def fileContent (w : World) (p : String) : Option Content :=
  ((entriesOf w (dirname p)).find? (fun nc => nc.1 = basename p)).map Prod.snd

/-- Translation of `os.path.isfile`. -/
def isfile (w : World) (p : String) : Bool := (fileContent w p).isSome

/-- Translation of `os.path.exists`: true for files and directories. -/
def pathExists (w : World) (p : String) : Bool := isfile w p || hasFolder w p

/-- Translation of `open(p, 'rb').read()`.  Total model: every caller in this development
reads paths it has already established to exist. -/
def pyRead (w : World) (p : String) : Content := (fileContent w p).getD []

/-- Translation of `HashCache._files_in_folder`: full paths of the plain files in a folder,
with enumeration failure treated as an empty folder. -/
def files_in_folder (w : World) (folder : String) : List String :=
  match listdir w folder with
  | none => []
  | some names => (names.map (fun n => joinPath folder n)).filter (fun f => isfile w f)

def putEntries (w : World) (folder : String) (es : List (String × Content)) : World :=
  if (w.folders.find? (fun e => e.1 = folder)).isSome then
    { w with folders := w.folders.map (fun e => if e.1 = folder then (e.1, es) else e) }
  else { w with folders := (folder, es) :: w.folders }

/-- Translation of `os.makedirs` with the source's "already exists" errno-17 tolerance. -/
def makedirs (w : World) (folder : String) : World :=
  if hasFolder w folder then w else { w with folders := (folder, []) :: w.folders }

def addEntry (w : World) (folder name : String) (c : Content) : World :=
  putEntries w folder ((name, c) :: (entriesOf w folder).filter (fun nc => !decide (nc.1 = name)))

def removeEntry (w : World) (folder name : String) : World :=
  putEntries w folder ((entriesOf w folder).filter (fun nc => !decide (nc.1 = name)))

/-- Translation of `shutil.move(src, dst)` for a fresh destination path. -/
def shutilMove (w : World) (src dst : String) : World :=
  addEntry (removeEntry w (dirname src) (basename src)) (dirname dst) (basename dst) (pyRead w src)

/-! ### Capture-date resolution (`creation_date` and the EXIF chain) -/

inductive PyErr where
  | missingExifTimestamp
  | badExifTimestamp
  | valueError
  | ioError
deriving DecidableEq

/-- Translation of `exif_creation_timestamp`: primary tag, then secondary tag, else raise
`MissingExifTimestampError`. -/
def exif_creation_timestamp (w : World) (path : String) : Except PyErr String :=
  match (w.exif path).dateTimeOriginal with
  | some s => Except.ok s
  | none =>
    match (w.exif path).dateTimeDigitized with
    | some s => Except.ok s
    | none => Except.error PyErr.missingExifTimestamp

/-- Translation of `re.split` against a character class, keeping empty pieces. -/
def splitOnPred (sep : Char → Bool) : List Char → List (List Char)
  | [] => [[]]
  | c :: cs =>
    match splitOnPred sep cs with
    | [] => [[]]
    | h :: t => if sep c then [] :: h :: t else (c :: h) :: t

def isPySpace (c : Char) : Bool :=
  c = ' ' || c = '\t' || c = '\n' || c = '\x0d' || c = '\x0b' || c = '\x0c'

def pyDigits (l : List Char) : Option Nat :=
  if l = [] then none
  else if l.all Char.isDigit then some (digitsVal l)
  else none

/-- Python `int(str)`: optional surrounding whitespace, optional sign, then a
nonempty digit run; anything else raises ValueError (modelled as `none`).
Numeric-literal underscores are not modelled. -/
def pyInt (s : String) : Option Int :=
  let l := ((s.data.dropWhile isPySpace).reverse.dropWhile isPySpace).reverse
  match l with
  | '-' :: rest => (pyDigits rest).map (fun n => -(n : Int))
  | '+' :: rest => (pyDigits rest).map (fun n => (n : Int))
  | _ => (pyDigits l).map (fun n => (n : Int))

def isLeapYear (y : Int) : Bool :=
  decide (y % 4 = 0 ∧ (¬y % 100 = 0 ∨ y % 400 = 0))

def daysInMonth (y m : Int) : Int :=
  if m = 1 ∨ m = 3 ∨ m = 5 ∨ m = 7 ∨ m = 8 ∨ m = 10 ∨ m = 12 then 31
  else if m = 4 ∨ m = 6 ∨ m = 9 ∨ m = 11 then 30
  else if isLeapYear y then 29 else 28

/-- Translation of `datetime.datetime(y, mo, d, h, mi, s)`: the CPython constructor raises
ValueError on out-of-range fields. -/
def mkDatetime (y mo d h mi s : Int) : Except PyErr DateTime :=
  if 1 ≤ y ∧ y ≤ 9999 ∧ 1 ≤ mo ∧ mo ≤ 12 ∧ 1 ≤ d ∧ d ≤ daysInMonth y mo
      ∧ 0 ≤ h ∧ h < 24 ∧ 0 ≤ mi ∧ mi < 60 ∧ 0 ≤ s ∧ s < 60 then
    Except.ok ⟨y.toNat, mo.toNat, d.toNat, h.toNat, mi.toNat, s.toNat⟩
  else Except.error PyErr.valueError

/-- Translation of `exif_timestamp_to_datetime`: split on `':'` or `' '`, convert every
piece with `int` (ValueError on failure), demand exactly six fields
(`BadExifTimestampError` otherwise), build the datetime. -/
def exif_timestamp_to_datetime (ts : String) : Except PyErr DateTime :=
  match (splitOnPred (fun c => c = ':' || c = ' ') ts.data).mapM (fun piece => pyInt ⟨piece⟩) with
  | none => Except.error PyErr.valueError
  | some elements =>
    match elements with
    | [y, mo, d, h, mi, s] => mkDatetime y mo d h mi s
    | _ => Except.error PyErr.badExifTimestamp

/-- Translation of `exif_creation_date`: catches exactly `MissingExifTimestampError` and
`BadExifTimestampError`; every other exception propagates. -/
def exif_creation_date (w : World) (path : String) : Except PyErr (Option DateTime) :=
  match exif_creation_timestamp w path with
  | Except.error PyErr.missingExifTimestamp => Except.ok none
  | Except.error e => Except.error e
  | Except.ok ts =>
    match exif_timestamp_to_datetime ts with
    | Except.error PyErr.badExifTimestamp => Except.ok none
    | Except.error e => Except.error e
    | Except.ok dt => Except.ok (some dt)

/-- Translation of `file_creation_date`: mtime converted to a local datetime. -/
def file_creation_date (w : World) (path : String) : DateTime := w.mtime path

/-- Translation of `creation_date`: EXIF timestamp if available, else the mtime fallback. -/
def creation_date (w : World) (path : String) : Except PyErr DateTime :=
  match exif_creation_date w path with
  | Except.error e => Except.error e
  | Except.ok (some d) => Except.ok d
  | Except.ok none => Except.ok (file_creation_date w path)

/-! ### Destination-path planning -/

/-- ASCII lowering; `str.lower` restricted to the ASCII range the accepted
extensions use. -/
def asciiLower (s : String) : String :=
  ⟨s.data.map (fun c => if 'A' ≤ c ∧ c ≤ 'Z' then Char.ofNat (c.toNat + 32) else c)⟩

/-- Translation of `folder_from_datetime`: `dt.strftime('%Y' + os.sep + '%Y-%m')`. -/
def folder_from_datetime (dt : DateTime) : String :=
  natRepr dt.year ++ "/" ++ natRepr dt.year ++ "-" ++ pad2 dt.month

/-- Translation of `basename_from_datetime`: `dt.strftime('%Y-%m-%d %H.%M.%S')`. -/
def basename_from_datetime (dt : DateTime) : String :=
  natRepr dt.year ++ "-" ++ pad2 dt.month ++ "-" ++ pad2 dt.day ++ " "
    ++ pad2 dt.hour ++ "." ++ pad2 dt.minute ++ "." ++ pad2 dt.second

/-- Translation of `filename_from_datetime`: timestamp base name plus the lower-cased
original extension. -/
def filename_from_datetime (dt : DateTime) (path : String) : String :=
  basename_from_datetime dt ++ asciiLower (splitext path).2

/-- Translation of `path_from_datetime`: `os.path.join(root_folder, folder, filename)`. -/
def path_from_datetime (root : String) (dt : DateTime) (path : String) : String :=
  joinPath (joinPath root (folder_from_datetime dt)) (filename_from_datetime dt path)

/-- Translation of `is_valid_filename`: the accepted media-extension set. -/
def is_valid_filename (path : String) : Bool :=
  decide (asciiLower (splitext path).2 ∈ [".jpg", ".jpeg", ".png", ".mov"])

/-- The probe name `'%s-%i%s' % (filename, i, ext)`. -/
def dedupName (filename ext : String) (i : Nat) : String :=
  filename ++ "-" ++ natRepr i ++ ext

/-- The probe path `os.path.join(dirname, new_fname)`. -/
def dedupCand (dn filename ext : String) (i : Nat) : String :=
  joinPath dn (dedupName filename ext i)

/-- The `while True` probe loop of `resolve_duplicate`.  The loop has no
bound in the source; `fuel` bounds the recursion and
`resolve_duplicate_spec` shows the fuel used below is never exhausted. -/
def dedupProbe (w : World) (dn filename ext : String) : Nat → Nat → String
  | 0, i => dedupCand dn filename ext i
  | fuel + 1, i =>
    let np := dedupCand dn filename ext i
    if pathExists w np then dedupProbe w dn filename ext fuel (i + 1) else np

/-- Total number of path entries in the world; an upper bound on how many
probe candidates can be occupied. -/
def numPaths (w : World) : Nat :=
  w.folders.length + (w.folders.map (fun e => e.2.length)).sum

/-- Translation of `resolve_duplicate`. -/
def resolve_duplicate (w : World) (path : String) : String :=
  if pathExists w path then
    dedupProbe w (dirname path) (splitext (basename path)).1 (splitext (basename path)).2
      (numPaths w + 1) 1
  else path

/-! ### HashCache

The SHA-1 content digest is external (`hashlib`); it is modelled as an
abstract function out of file contents.  The dedup theorems that need
"byte-identical ⟷ equal digest" assume the digest is injective, the
negligible-collision reading the spec explicitly accepts. -/

section Hash

variable {σ : Type} [DecidableEq σ]

/-- Translation of `HashCache.hashes`: folder → (hash set, filename → hash).  The Python
`set`/`dict` pair is modelled as lists with membership-respecting insert. -/
abbrev Cache (σ : Type) := List (String × (List σ × List (String × σ)))

/-- Translation of the `defaultdict` read: missing folders present as `(set(), dict())`. -/
def cacheEntry (c : Cache σ) (folder : String) : List σ × List (String × σ) :=
  match c.find? (fun e => e.1 = folder) with
  | some e => e.2
  | none => ([], [])

def cacheSet (c : Cache σ) (folder : String) (v : List σ × List (String × σ)) : Cache σ :=
  if (c.find? (fun e => e.1 = folder)).isSome then
    c.map (fun e => if e.1 = folder then (e.1, v) else e)
  else (folder, v) :: c

def insertHash (h : σ) (hs : List σ) : List σ := if h ∈ hs then hs else h :: hs

def upsert (d : List (String × σ)) (k : String) (v : σ) : List (String × σ) :=
  if (d.find? (fun kv => kv.1 = k)).isSome then
    d.map (fun kv => if kv.1 = k then (k, v) else kv)
  else (k, v) :: d

/-- Translation of `HashCache._add_file`.  The second component counts hash computations:
`1` when the file is (re-)hashed, `0` when the bail-out check fires.  Note
the source checks the full `path` against a dictionary keyed by
`basename(path)`. -/
def addFile (hash : Content → σ) (w : World) (c : Cache σ) (path : String) : Cache σ × Nat :=
  let folder := dirname path
  let e := cacheEntry c folder
  if (e.2.find? (fun kv => kv.1 = path)).isSome then (c, 0)
  else
    let h := hash (pyRead w path)
    (cacheSet c folder (insertHash h e.1, upsert e.2 (basename path) h), 1)

/-- The body of `has_file`'s back-fill loop, with the hash-count
instrumentation threaded through. -/
def backfillStep (hash : Content → σ) (w : World) (acc : Cache σ × Nat) (f : String) :
    Cache σ × Nat :=
  ((addFile hash w acc.1 f).1, acc.2 + (addFile hash w acc.1 f).2)

/-- Translation of `HashCache.has_file`: normalize the folder, back-fill it, hash the
candidate, and answer membership in the folder's hash set.  Returns the
answer, the updated cache, and the number of folder files hashed during
back-fill. -/
def has_file (hash : Content → σ) (w : World) (c : Cache σ) (folder : String)
    (cand : Content) : Bool × Cache σ × Nat :=
  let tf := normpath folder
  let r := (files_in_folder w tf).foldl (backfillStep hash w) (c, 0)
  (decide (hash cand ∈ (cacheEntry r.1 tf).1), r.1, r.2)

/-! ### The organize engine (`move_file`) -/

/-- Observable side effects of one `move_file` call, in program order. -/
inductive Event where
  | planned (dst : String)
  | hashed (folderFiles : Nat)
  | mkdirs (folder : String)
  | moved (src dst : String)
deriving DecidableEq

/-- Translation of `move_file`: vanished-source and extension guards, destination
planning, dedup check, `makedirs`, `shutil.move`.  Uncaught Python
exceptions surface as `Except.error`. -/
def move_file (hash : Content → σ) (root path : String) (w : World) (c : Cache σ) :
    Except PyErr (World × Cache σ × List Event) :=
  if ¬pathExists w path = true then Except.ok (w, c, [])
  else if ¬is_valid_filename path = true then Except.ok (w, c, [])
  else
    match creation_date w path with
    | Except.error e => Except.error e
    | Except.ok cdate =>
      let dst := resolve_duplicate w (path_from_datetime root cdate path)
      let dirs := dirname dst
      let r := has_file hash w c dirs (pyRead w path)
      if r.1 then Except.ok (w, r.2.1, [Event.planned dst, Event.hashed r.2.2])
      else
        Except.ok (shutilMove (makedirs w dirs) path dst, r.2.1,
          [Event.planned dst, Event.hashed r.2.2, Event.mkdirs dirs, Event.moved path dst])

/-! ### The worker thread and shutdown (`MoveFileThread`, `run`) -/

/-- State of the `MoveFileThread` worker together with the shared queue. -/
structure TState (σ : Type) where
  queue : List String
  processed : List String
  errlog : List PyErr
  world : World
  cache : Cache σ
  isRunning : Bool

/-- One iteration of `MoveFileThread.run`: stop when the flag is down, spin
on an empty queue, otherwise dequeue one item, run `move_file` under the
catch-all `except Exception` handler, and mark the task done. -/
def workerStep (hash : Content → σ) (root : String) (s : TState σ) : TState σ :=
  if ¬s.isRunning = true then s
  else
    match s.queue with
    | [] => s
    | p :: rest =>
      match move_file hash root p s.world s.cache with
      | Except.ok (w, c, _) =>
        { s with queue := rest, processed := s.processed ++ [p], world := w, cache := c }
      | Except.error e =>
        { s with queue := rest, processed := s.processed ++ [p], errlog := s.errlog ++ [e] }

def drainSteps (hash : Content → σ) (root : String) : Nat → TState σ → TState σ
  | 0, s => s
  | n + 1, s => drainSteps hash root n (workerStep hash root s)

/-- The shutdown sequence of `run`: the watchdog observer is already
stopped (no further enqueues), `shared_queue.join()` lets the worker drain
every queued item, and only then do `move_thread.stop()` and `join()`
release the worker. -/
def shutdownDrain (hash : Content → σ) (root : String) (s : TState σ) : TState σ :=
  let s2 := drainSteps hash root s.queue.length s
  { s2 with isRunning := false }

end Hash

/-! ### Concrete scaffolding used by the witness theorems -/

def hashId : Content → Content := fun c => c

def mt0 : DateTime := ⟨2014, 2, 23, 21, 47, 14⟩

/-- Empty filesystem, no EXIF tags anywhere. -/
def wEmptyFs : World :=
  { folders := [], exif := fun _ => ⟨none, none⟩, mtime := fun _ => mt0 }

/-- One folder `d` holding `a.jpg` and `a-1.jpg`. -/
def wDup : World :=
  { folders := [("d", [("a.jpg", [0]), ("a-1.jpg", [1])])],
    exif := fun _ => ⟨none, none⟩, mtime := fun _ => mt0 }

/-- One folder `d` holding a single file `a.jpg`. -/
def wD4 : World :=
  { folders := [("d", [("a.jpg", [1])])],
    exif := fun _ => ⟨none, none⟩, mtime := fun _ => mt0 }

/-- A source folder holding `a.jpg` with EXIF capture date 2004-05-07. -/
def wSrc : World :=
  { folders := [("src", [("a.jpg", [5])])],
    exif := fun _ => ⟨some "2004:05:07 20:16:31", none⟩, mtime := fun _ => mt0 }

/-- EXIF timestamp with a component `int()` cannot parse. -/
def wBadExif : World :=
  { folders := [], exif := fun _ => ⟨some "x:05:07 20:16:31", none⟩, mtime := fun _ => mt0 }

/-- EXIF timestamp with only five fields. -/
def wWrongCount : World :=
  { folders := [], exif := fun _ => ⟨some "2004:05:07 20:16", none⟩, mtime := fun _ => mt0 }

/-! ### C7: extension filtering -/

/-- Claim C7: A path whose extension (case-insensitive) is outside
`{.jpg, .jpeg, .png, .mov}` makes `move_file` a complete no-op: the world
and cache are untouched and no event — no hash, no planned destination, no
directory creation, no move — is produced. -/
theorem move_file_skips_invalid_extension {σ : Type} [DecidableEq σ] (hash : Content → σ)
    (root path : String) (w : World) (c : Cache σ)
    (hinv : is_valid_filename path = false) :
    move_file hash root path w c = Except.ok (w, c, []) := by
  unfold move_file
  by_cases hex : pathExists w path = true
  · rw [if_neg (by simp [hex]), if_pos (by simp [hinv])]
  · rw [if_pos (by simpa using hex)]

theorem move_file_skips_invalid_extension_witness :
    is_valid_filename "src/note.txt" = false ∧
    move_file hashId "/dst" "src/note.txt" wSrc [] = Except.ok (wSrc, [], []) :=
  ⟨by decide, move_file_skips_invalid_extension hashId "/dst" "src/note.txt" wSrc [] (by decide)⟩

/-! ### C8 and C9: the worker loop and shutdown drain -/

theorem workerStep_facts {σ : Type} [DecidableEq σ] (hash : Content → σ) (root : String)
    (s : TState σ) (p : String) (rest : List String)
    (hrun : s.isRunning = true) (hq : s.queue = p :: rest) :
    (workerStep hash root s).queue = rest ∧
    (workerStep hash root s).isRunning = true ∧
    (workerStep hash root s).processed = s.processed ++ [p] ∧
    (∀ e, move_file hash root p s.world s.cache = Except.error e →
      (workerStep hash root s).errlog = s.errlog ++ [e]) := by
  unfold workerStep
  rw [if_neg (by simp [hrun]), hq]
  dsimp only
  cases hmv : move_file hash root p s.world s.cache with
  | ok r =>
    obtain ⟨w', c', ev⟩ := r
    refine ⟨rfl, hrun, rfl, ?_⟩
    intro e he
    exact absurd he (by simp)
  | error e =>
    refine ⟨rfl, hrun, rfl, ?_⟩
    intro e2 he
    have : e = e2 := Except.error.inj he
    rw [this]

/-- Claim C8: While the worker is running and an item is at the head of the
queue, one iteration of `MoveFileThread.run` always consumes exactly that
item and keeps the worker alive: the queue advances to the remaining items,
the running flag stays up, the item is recorded as attempted, and if
`move_file` raised, the exception is appended to the log instead of
propagating. -/
theorem worker_survives_item_failure {σ : Type} [DecidableEq σ] (hash : Content → σ)
    (root : String) (s : TState σ) (p : String) (rest : List String)
    (hrun : s.isRunning = true) (hq : s.queue = p :: rest) :
    (workerStep hash root s).queue = rest ∧
    (workerStep hash root s).isRunning = true ∧
    (workerStep hash root s).processed = s.processed ++ [p] ∧
    (∀ e, move_file hash root p s.world s.cache = Except.error e →
      (workerStep hash root s).errlog = s.errlog ++ [e]) :=
  workerStep_facts hash root s p rest hrun hq

def sW8 : TState Content :=
  { queue := ["x.txt"], processed := [], errlog := [], world := wEmptyFs,
    cache := [], isRunning := true }

theorem worker_survives_item_failure_witness :
    (workerStep hashId "/d" sW8).queue = [] ∧
    (workerStep hashId "/d" sW8).isRunning = true ∧
    (workerStep hashId "/d" sW8).processed = [] ++ ["x.txt"] := by
  obtain ⟨h1, h2, h3, _⟩ := worker_survives_item_failure hashId "/d" sW8 "x.txt" [] rfl rfl
  exact ⟨h1, h2, h3⟩

theorem drain_spec {σ : Type} [DecidableEq σ] (hash : Content → σ) (root : String) :
    ∀ (q : List String) (s : TState σ), s.isRunning = true → s.queue = q →
      (drainSteps hash root q.length s).queue = [] ∧
      (drainSteps hash root q.length s).isRunning = true ∧
      (drainSteps hash root q.length s).processed = s.processed ++ q := by
  intro q
  induction q with
  | nil =>
    intro s h1 h2
    exact ⟨h2, h1, by simp [drainSteps]⟩
  | cons p rest ih =>
    intro s h1 h2
    obtain ⟨hq, hr, hp, _⟩ := workerStep_facts hash root s p rest h1 h2
    have hstep : drainSteps hash root (p :: rest).length s
        = drainSteps hash root rest.length (workerStep hash root s) := rfl
    obtain ⟨i1, i2, i3⟩ := ih (workerStep hash root s) hr hq
    refine ⟨by rw [hstep]; exact i1, by rw [hstep]; exact i2, ?_⟩
    rw [hstep, i3, hp]
    simp

/-- Claim C9: With the notification source already stopped, the shutdown
sequence of `run` first drains: the worker stays running until the queue is
fully empty and every item that was enqueued is attempted, in order; only
after the drain is the worker's running flag cleared.  No queued item is
discarded. -/
theorem shutdown_drains_all_enqueued {σ : Type} [DecidableEq σ] (hash : Content → σ)
    (root : String) (s : TState σ) (hrun : s.isRunning = true) :
    (drainSteps hash root s.queue.length s).isRunning = true ∧
    (shutdownDrain hash root s).isRunning = false ∧
    (shutdownDrain hash root s).queue = [] ∧
    (shutdownDrain hash root s).processed = s.processed ++ s.queue := by
  obtain ⟨h1, h2, h3⟩ := drain_spec hash root s.queue s hrun rfl
  exact ⟨h2, rfl, h1, h3⟩

def sW9 : TState Content :=
  { queue := ["a.jpg", "b.jpg", "c.txt"], processed := ["old.jpg"], errlog := [],
    world := wEmptyFs, cache := [], isRunning := true }

theorem shutdown_drains_all_enqueued_witness :
    (shutdownDrain hashId "/d" sW9).isRunning = false ∧
    (shutdownDrain hashId "/d" sW9).queue = [] ∧
    (shutdownDrain hashId "/d" sW9).processed = ["old.jpg"] ++ ["a.jpg", "b.jpg", "c.txt"] := by
  obtain ⟨_, h2, h3, h4⟩ := shutdown_drains_all_enqueued hashId "/d" sW9 rfl
  exact ⟨h2, h3, h4⟩

/-! ### C4: the back-fill is *not* incremental (code bug) -/

/-- Claim C4, refuting theorem for the code-bug verdict:  Folder `d` holds
one file.  The first `has_file` call hashes it and indexes it in the
per-folder dictionary under its basename `a.jpg`.  The second call on the
very same cache hashes it again (folder-hash count 1, not 0): the bail-out
in `_add_file` compares the full path `d/a.jpg` against keys that are
basenames, so it can never fire.  This contradicts the claim (and the
source's own comments, "Bail out if we already have a hash for the file at
`path`" / "`_add_file` is smart enough to skip any files we already
hashed"). -/
theorem hashcache_rehashes_already_indexed_file :
    (has_file hashId wD4 [] "d" [2]).2.2 = 1 ∧
    (cacheEntry ((has_file hashId wD4 [] "d" [2]).2.1) "d").2 = [("a.jpg", [1])] ∧
    (has_file hashId wD4 ((has_file hashId wD4 [] "d" [2]).2.1) "d" [2]).2.2 = 1 := by
  decide

/-! ### C3: capture-date resolution and its fallback -/

/-- Claim C3, counterexample:  An embedded timestamp with a component `int()`
cannot parse makes the resolver raise `ValueError` to its caller instead of
degrading to the mtime fallback: only `BadExifTimestampError` — raised for
a wrong field count — is caught by `exif_creation_date`. -/
theorem creation_date_raises_on_unparsable_component :
    creation_date wBadExif "img.jpg" = Except.error PyErr.valueError ∧
    ¬creation_date wBadExif "img.jpg"
      = Except.ok (file_creation_date wBadExif "img.jpg") := by
  decide

/-- Claim C3, amended:  The capture-date resolver degrades to the mtime
fallback when the embedded timestamp is missing, and when it is malformed
by field count — it splits into integer-parsable components but not exactly
six of them.  (A component that fails integer parsing, or an out-of-range
date, raises `ValueError` past the resolver instead; see the
counterexample.) -/
theorem creation_date_fallback_cases (w : World) (path : String) :
    (exif_creation_timestamp w path = Except.error PyErr.missingExifTimestamp →
      creation_date w path = Except.ok (file_creation_date w path)) ∧
    (∀ (ts : String) (es : List Int), exif_creation_timestamp w path = Except.ok ts →
      (splitOnPred (fun c => c = ':' || c = ' ') ts.data).mapM (fun piece => pyInt ⟨piece⟩)
        = some es →
      ¬es.length = 6 →
      creation_date w path = Except.ok (file_creation_date w path)) := by
  constructor
  · intro hmiss
    unfold creation_date exif_creation_date
    rw [hmiss]
  · intro ts es hts hmap hlen
    have hbad : exif_timestamp_to_datetime ts = Except.error PyErr.badExifTimestamp := by
      unfold exif_timestamp_to_datetime
      rw [hmap]
      rcases es with _ | ⟨e1, _ | ⟨e2, _ | ⟨e3, _ | ⟨e4, _ | ⟨e5, _ | ⟨e6, _ | ⟨e7, tl⟩⟩⟩⟩⟩⟩⟩
      · rfl
      · rfl
      · rfl
      · rfl
      · rfl
      · rfl
      · exact absurd rfl hlen
      · rfl
    unfold creation_date exif_creation_date
    rw [hts]
    dsimp only
    rw [hbad]

theorem creation_date_fallback_cases_witness :
    creation_date wEmptyFs "a.jpg" = Except.ok (file_creation_date wEmptyFs "a.jpg") ∧
    creation_date wWrongCount "b.jpg" = Except.ok (file_creation_date wWrongCount "b.jpg") :=
  ⟨(creation_date_fallback_cases wEmptyFs "a.jpg").1 (by decide),
    (creation_date_fallback_cases wWrongCount "b.jpg").2 "2004:05:07 20:16"
      [2004, 5, 7, 20, 16] (by decide) (by decide) (by decide)⟩

/-! ### C2: collision resolution -/

theorem dedupName_inj (fn ext : String) (i j : Nat)
    (h : dedupName fn ext i = dedupName fn ext j) : i = j := by
  unfold dedupName at h
  have hd := congrArg String.data h
  rw [String.data_append, String.data_append, String.data_append,
    String.data_append, String.data_append, String.data_append] at hd
  have h1 := List.append_cancel_right hd
  have h2 := List.append_cancel_left h1
  exact natRepr_injective (String.ext h2)

theorem dedupName_slashFree (fn ext : String) (h1 : '/' ∉ fn.data) (h2 : '/' ∉ ext.data)
    (i : Nat) : '/' ∉ (dedupName fn ext i).data := by
  unfold dedupName
  rw [String.data_append, String.data_append, String.data_append]
  intro hm
  rcases List.mem_append.mp hm with hm | hm
  · rcases List.mem_append.mp hm with hm | hm
    · rcases List.mem_append.mp hm with hm | hm
      · exact h1 hm
      · simp at hm
    · exact slash_not_mem_natRepr i hm
  · exact h2 hm

theorem dedupName_ne_empty (fn ext : String) (i : Nat) : (dedupName fn ext i).data ≠ [] := by
  unfold dedupName
  rw [String.data_append, String.data_append, String.data_append]
  intro h
  rcases List.append_eq_nil.mp (List.append_eq_nil.mp (List.append_eq_nil.mp h).1).1 with ⟨_, h2⟩
  simp at h2

theorem dedupCand_inj (dn fn ext : String) (h1 : '/' ∉ fn.data) (h2 : '/' ∉ ext.data)
    (i j : Nat) (h : dedupCand dn fn ext i = dedupCand dn fn ext j) : i = j :=
  dedupName_inj fn ext i j
    (join_right_injective dn _ _ (dedupName_slashFree fn ext h1 h2 i)
      (dedupName_slashFree fn ext h1 h2 j) h)

/-- When the folder part is empty, `joinPath` is the identity on the name. -/
theorem joinPath_empty_left (a b : String) (ha : a.data = []) (hb : '/' ∉ b.data) :
    joinPath a b = b := by
  unfold joinPath
  rw [if_neg (join_not_absolute hb), if_pos (Or.inl ha)]
  apply String.ext
  rw [String.data_append, ha]
  simp

/-- Maps a probe index whose candidate path exists to a finite catalogue of
occupied names: either the file name inside the probed folder, or the
folder-key string itself. -/
def probeKey (w : World) (dn fn ext : String) (i : Nat) : String :=
  if isfile w (dedupCand dn fn ext i) then dedupName fn ext i else dedupCand dn fn ext i

def takenNames (w : World) (dn : String) : List String :=
  (entriesOf w dn).map Prod.fst ++ w.folders.map Prod.fst

theorem probeKey_mem (w : World) (dn fn ext : String) (i : Nat)
    (h1 : '/' ∉ fn.data) (h2 : '/' ∉ ext.data) (hsane : saneDir dn = true)
    (hex : pathExists w (dedupCand dn fn ext i) = true) :
    probeKey w dn fn ext i ∈ takenNames w dn := by
  unfold probeKey
  by_cases hf : isfile w (dedupCand dn fn ext i) = true
  · rw [if_pos hf]
    unfold isfile fileContent at hf
    have hd : dirname (dedupCand dn fn ext i) = dn := by
      unfold dedupCand
      exact dirname_join dn _ hsane (dedupName_slashFree fn ext h1 h2 i)
    have hb : basename (dedupCand dn fn ext i) = dedupName fn ext i := by
      unfold dedupCand
      exact basename_join dn _ (dedupName_slashFree fn ext h1 h2 i)
    rw [hd, hb] at hf
    rw [Option.isSome_map', List.find?_isSome] at hf
    obtain ⟨x, hx, hpx⟩ := hf
    refine List.mem_append.mpr (Or.inl ?_)
    have : x.1 = dedupName fn ext i := by simpa using hpx
    exact this ▸ List.mem_map.mpr ⟨x, hx, rfl⟩
  · rw [if_neg hf]
    unfold pathExists at hex
    have hdir : hasFolder w (dedupCand dn fn ext i) = true := by
      rcases (Bool.or_eq_true _ _).mp hex with h | h
      · exact absurd h hf
      · exact h
    unfold hasFolder at hdir
    rw [List.find?_isSome] at hdir
    obtain ⟨x, hx, hpx⟩ := hdir
    refine List.mem_append.mpr (Or.inr ?_)
    have : x.1 = dedupCand dn fn ext i := by simpa using hpx
    exact this ▸ List.mem_map.mpr ⟨x, hx, rfl⟩

theorem probeKey_inj (w : World) (dn fn ext : String)
    (h1 : '/' ∉ fn.data) (h2 : '/' ∉ ext.data) (i j : Nat)
    (h : probeKey w dn fn ext i = probeKey w dn fn ext j) : i = j := by
  have hmixed : ∀ a b : Nat, dedupName fn ext a = dedupCand dn fn ext b → a = b := by
    intro a b hab
    by_cases hdn : dn.data = []
    · exact dedupName_inj fn ext a b
        (hab.trans (joinPath_empty_left dn _ hdn (dedupName_slashFree fn ext h1 h2 b)))
    · exfalso
      have hsl : '/' ∈ (dedupCand dn fn ext b).data :=
        join_has_slash dn _ hdn (dedupName_slashFree fn ext h1 h2 b)
      rw [← hab] at hsl
      exact dedupName_slashFree fn ext h1 h2 a hsl
  unfold probeKey at h
  by_cases hi : isfile w (dedupCand dn fn ext i) = true <;>
    by_cases hj : isfile w (dedupCand dn fn ext j) = true
  · rw [if_pos hi, if_pos hj] at h
    exact dedupName_inj fn ext i j h
  · rw [if_pos hi, if_neg hj] at h
    exact hmixed i j h
  · rw [if_neg hi, if_pos hj] at h
    exact (hmixed j i h.symm).symm
  · rw [if_neg hi, if_neg hj] at h
    exact dedupCand_inj dn fn ext h1 h2 i j h

theorem entries_length_le (w : World) (dn : String) :
    (entriesOf w dn).length ≤ (w.folders.map (fun e => e.2.length)).sum := by
  unfold entriesOf
  cases hf : w.folders.find? (fun e => e.1 = dn) with
  | none => simp
  | some e =>
    have hm : e ∈ w.folders := List.mem_of_find?_eq_some hf
    exact List.single_le_sum (fun y _ => Nat.zero_le y) _
      (List.mem_map.mpr ⟨e, hm, rfl⟩)

/-- Pigeonhole: some probe index in `[1, numPaths w + 1]` is free. -/
theorem exists_free_probe (w : World) (dn fn ext : String)
    (h1 : '/' ∉ fn.data) (h2 : '/' ∉ ext.data) (hsane : saneDir dn = true) :
    ∃ n, 1 ≤ n ∧ n ≤ numPaths w + 1 ∧ pathExists w (dedupCand dn fn ext n) = false := by
  by_contra hcon
  push_neg at hcon
  have hall : ∀ n, 1 ≤ n → n ≤ numPaths w + 1 → pathExists w (dedupCand dn fn ext n) = true := by
    intro n hn1 hn2
    have := hcon n hn1 hn2
    cases hb : pathExists w (dedupCand dn fn ext n) with
    | true => rfl
    | false => exact absurd hb this
  have hnd : ((List.range (numPaths w + 1)).map
      (fun k => probeKey w dn fn ext (k + 1))).Nodup := by
    refine (List.nodup_range _).map_on ?_
    intro x _ y _ hxy
    have := probeKey_inj w dn fn ext h1 h2 (x + 1) (y + 1) hxy
    omega
  have hsub : (List.range (numPaths w + 1)).map (fun k => probeKey w dn fn ext (k + 1))
      ⊆ takenNames w dn := by
    intro s hs
    obtain ⟨k, hk, rfl⟩ := List.mem_map.mp hs
    have hk2 : k < numPaths w + 1 := List.mem_range.mp hk
    exact probeKey_mem w dn fn ext (k + 1) h1 h2 hsane (hall (k + 1) (by omega) (by omega))
  have hlen := (hnd.subperm hsub).length_le
  rw [List.length_map, List.length_range] at hlen
  have htk : (takenNames w dn).length ≤ numPaths w := by
    unfold takenNames numPaths
    rw [List.length_append, List.length_map, List.length_map]
    have := entries_length_le w dn
    omega
  omega

/-- The probe loop returns the first free index at or after its start,
provided a free index lies within its fuel. -/
theorem dedupProbe_spec (w : World) (dn fn ext : String) :
    ∀ (fuel i : Nat),
      (∃ j, i ≤ j ∧ j < i + fuel ∧ pathExists w (dedupCand dn fn ext j) = false) →
      ∃ n, i ≤ n ∧ dedupProbe w dn fn ext fuel i = dedupCand dn fn ext n ∧
        pathExists w (dedupCand dn fn ext n) = false ∧
        ∀ m, i ≤ m → m < n → pathExists w (dedupCand dn fn ext m) = true := by
  intro fuel
  induction fuel with
  | zero =>
    intro i hex
    obtain ⟨j, hj1, hj2, _⟩ := hex
    omega
  | succ f ih =>
    intro i hex
    obtain ⟨j, hj1, hj2, hjf⟩ := hex
    by_cases hi : pathExists w (dedupCand dn fn ext i) = true
    · have hstep0 : dedupProbe w dn fn ext (f + 1) i
          = if pathExists w (dedupCand dn fn ext i) = true then
              dedupProbe w dn fn ext f (i + 1)
            else dedupCand dn fn ext i := rfl
      have hstep : dedupProbe w dn fn ext (f + 1) i = dedupProbe w dn fn ext f (i + 1) := by
        rw [hstep0, if_pos hi]
      have hji : ¬j = i := by
        intro he
        rw [he, hi] at hjf
        simp at hjf
      obtain ⟨n, hn1, hn2, hn3, hn4⟩ := ih (i + 1) ⟨j, by omega, by omega, hjf⟩
      refine ⟨n, by omega, by rw [hstep]; exact hn2, hn3, ?_⟩
      intro m hm1 hm2
      by_cases hmi : m = i
      · rw [hmi]; exact hi
      · exact hn4 m (by omega) hm2
    · have hif : pathExists w (dedupCand dn fn ext i) = false := by
        cases hb : pathExists w (dedupCand dn fn ext i) with
        | true => exact absurd hb hi
        | false => rfl
      refine ⟨i, Nat.le_refl i, ?_, hif, ?_⟩
      · have hstep0 : dedupProbe w dn fn ext (f + 1) i
            = if pathExists w (dedupCand dn fn ext i) = true then
                dedupProbe w dn fn ext f (i + 1)
              else dedupCand dn fn ext i := rfl
        rw [hstep0, if_neg hi]
      · intro m hm1 hm2
        omega

/-- Claim C2: `resolve_duplicate` returns a path that does not exist whose
collision suffix is the smallest integer `≥ 1` making it free, probing
`-1, -2, …` in increasing order; when the unsuffixed path does not exist it
is returned unchanged. -/
theorem resolve_duplicate_spec (w : World) (path : String) :
    (pathExists w path = false → resolve_duplicate w path = path) ∧
    (pathExists w path = true →
      ∃ n, 1 ≤ n ∧
        resolve_duplicate w path = dedupCand (dirname path) (splitext (basename path)).1
          (splitext (basename path)).2 n ∧
        pathExists w (dedupCand (dirname path) (splitext (basename path)).1
          (splitext (basename path)).2 n) = false ∧
        ∀ m, 1 ≤ m → m < n →
          pathExists w (dedupCand (dirname path) (splitext (basename path)).1
            (splitext (basename path)).2 m) = true) := by
  constructor
  · intro h
    unfold resolve_duplicate
    rw [if_neg (by simp [h])]
  · intro h
    have hfn : '/' ∉ (splitext (basename path)).1.data := by
      intro hm
      exact basename_slashFree path (splitext_fst_subset (basename path) hm)
    have hext : '/' ∉ (splitext (basename path)).2.data := splitext_snd_slashFree (basename path)
    obtain ⟨n0, hn01, hn02, hn03⟩ :=
      exists_free_probe w (dirname path) (splitext (basename path)).1
        (splitext (basename path)).2 hfn hext (dirname_sane path)
    obtain ⟨n, hn1, hn2, hn3, hn4⟩ :=
      dedupProbe_spec w (dirname path) (splitext (basename path)).1
        (splitext (basename path)).2 (numPaths w + 1) 1 ⟨n0, hn01, by omega, hn03⟩
    refine ⟨n, hn1, ?_, hn3, hn4⟩
    unfold resolve_duplicate
    rw [if_pos h]
    exact hn2

theorem resolve_duplicate_spec_witness :
    pathExists wDup "d/a.jpg" = true ∧
    (∃ n, 1 ≤ n ∧
      resolve_duplicate wDup "d/a.jpg" = dedupCand (dirname "d/a.jpg")
        (splitext (basename "d/a.jpg")).1 (splitext (basename "d/a.jpg")).2 n ∧
      pathExists wDup (dedupCand (dirname "d/a.jpg") (splitext (basename "d/a.jpg")).1
        (splitext (basename "d/a.jpg")).2 n) = false ∧
      ∀ m, 1 ≤ m → m < n →
        pathExists wDup (dedupCand (dirname "d/a.jpg") (splitext (basename "d/a.jpg")).1
          (splitext (basename "d/a.jpg")).2 m) = true) ∧
    resolve_duplicate wDup "d/b.jpg" = "d/b.jpg" :=
  ⟨by decide, (resolve_duplicate_spec wDup "d/a.jpg").2 (by decide),
    (resolve_duplicate_spec wDup "d/b.jpg").1 (by decide)⟩

/-! ### C1 and C10: the hash cache -/

/-- Well-formed filesystem: within each folder, file names are unique and
contain no separator — what a real `os.listdir` delivers. -/
def WFWorld (w : World) : Prop :=
  ∀ e ∈ w.folders, (e.2.map Prod.fst).Nodup ∧ ∀ nc ∈ e.2, '/' ∉ nc.1.data

instance (w : World) : Decidable (WFWorld w) := by
  unfold WFWorld
  infer_instance

/-- All per-folder dictionary keys held by a cache are basenames (no
separator); every cache reachable from the empty one satisfies this. -/
def keysSlashFree {σ : Type} (c : Cache σ) : Prop :=
  ∀ e ∈ c, ∀ kv ∈ e.2.2, '/' ∉ kv.1.data

section HashLemmas

variable {σ : Type} [DecidableEq σ]

theorem find?_keyupdate {β : Type} (l : List (String × β)) (k k' : String) (v : β) :
    (l.map (fun e => if e.1 = k then (e.1, v) else e)).find? (fun e => e.1 = k')
    = (l.find? (fun e => e.1 = k')).map (fun e => if e.1 = k then (e.1, v) else e) := by
  induction l with
  | nil => rfl
  | cons x t ih =>
    have hkey : (if x.1 = k then (x.1, v) else x).1 = x.1 := by
      by_cases hx : x.1 = k <;> simp [hx]
    by_cases hx : x.1 = k'
    · rw [List.map_cons, List.find?_cons_of_pos _ (by rw [hkey]; simp [hx]),
        List.find?_cons_of_pos _ (by simp [hx])]
      rfl
    · rw [List.map_cons, List.find?_cons_of_neg _ (by rw [hkey]; simp [hx]),
        List.find?_cons_of_neg _ (by simp [hx])]
      exact ih

theorem cacheEntry_cacheSet (c : Cache σ) (f f' : String)
    (v : List σ × List (String × σ)) :
    cacheEntry (cacheSet c f v) f' = if f' = f then v else cacheEntry c f' := by
  unfold cacheEntry cacheSet
  by_cases hs : (c.find? (fun e => e.1 = f)).isSome = true
  · rw [if_pos hs, find?_keyupdate]
    by_cases hf : f' = f
    · rw [if_pos hf]
      subst hf
      cases hfd : c.find? (fun e => e.1 = f') with
      | none => rw [hfd] at hs; simp at hs
      | some e =>
        have : e.1 = f' := by simpa using List.find?_some hfd
        simp [this]
    · rw [if_neg hf]
      cases hfd : c.find? (fun e => e.1 = f') with
      | none => rfl
      | some e =>
        have : e.1 = f' := by simpa using List.find?_some hfd
        simp [this, hf]
  · rw [if_neg hs]
    by_cases hf : f' = f
    · subst hf
      rw [if_pos rfl, List.find?_cons_of_pos _ (by simp)]
    · rw [if_neg hf, List.find?_cons_of_neg _ (by simp; exact fun h => hf h.symm)]

theorem mem_insertHash (h x : σ) (hs : List σ) :
    x ∈ insertHash h hs ↔ x = h ∨ x ∈ hs := by
  unfold insertHash
  by_cases hm : h ∈ hs
  · rw [if_pos hm]
    constructor
    · exact fun hx => Or.inr hx
    · rintro (rfl | hx)
      · exact hm
      · exact hx
  · rw [if_neg hm]
    simp

theorem keysSlashFree_cacheSet {c : Cache σ} (hc : keysSlashFree c) (f : String)
    {v : List σ × List (String × σ)} (hv : ∀ kv ∈ v.2, '/' ∉ kv.1.data) :
    keysSlashFree (cacheSet c f v) := by
  intro e he kv hkv
  unfold cacheSet at he
  by_cases hs : (c.find? (fun e => e.1 = f)).isSome = true
  · rw [if_pos hs] at he
    obtain ⟨x, hx, hmap⟩ := List.mem_map.mp he
    by_cases hxf : x.1 = f
    · rw [if_pos hxf] at hmap
      rw [← hmap] at hkv
      exact hv kv hkv
    · rw [if_neg hxf] at hmap
      exact hc x hx kv (hmap ▸ hkv)
  · rw [if_neg hs] at he
    rcases List.mem_cons.mp he with he | he
    · rw [he] at hkv
      exact hv kv hkv
    · exact hc e he kv hkv

theorem upsert_keys_slashFree {d : List (String × σ)} (hd : ∀ kv ∈ d, '/' ∉ kv.1.data)
    {k : String} (hk : '/' ∉ k.data) (v : σ) :
    ∀ kv ∈ upsert d k v, '/' ∉ kv.1.data := by
  intro kv hkv
  unfold upsert at hkv
  by_cases hs : (d.find? (fun kv => kv.1 = k)).isSome = true
  · rw [if_pos hs] at hkv
    obtain ⟨x, hx, hmap⟩ := List.mem_map.mp hkv
    by_cases hxk : x.1 = k
    · rw [if_pos hxk] at hmap
      rw [← hmap]
      exact hk
    · rw [if_neg hxk] at hmap
      exact hmap ▸ hd x hx
  · rw [if_neg hs] at hkv
    rcases List.mem_cons.mp hkv with hkv | hkv
    · rw [hkv]
      exact hk
    · exact hd kv hkv

/-- On a path that contains a separator, the bail-out check of `_add_file`
can never fire against basename keys, so the file is hashed and indexed. -/
theorem addFile_full (hash : Content → σ) (w : World) (c : Cache σ) (p : String)
    (hsl : '/' ∈ p.data) (hcwf : keysSlashFree c) :
    addFile hash w c p
      = (cacheSet c (dirname p)
          (insertHash (hash (pyRead w p)) (cacheEntry c (dirname p)).1,
            upsert (cacheEntry c (dirname p)).2 (basename p) (hash (pyRead w p))), 1) := by
  unfold addFile
  have hnone : ((cacheEntry c (dirname p)).2.find? (fun kv => kv.1 = p)) = none := by
    rw [List.find?_eq_none]
    intro kv hkv
    simp only [decide_eq_true_eq]
    intro he
    have hkeys : '/' ∉ kv.1.data := by
      unfold cacheEntry at hkv
      cases hfd : c.find? (fun e => e.1 = dirname p) with
      | none => rw [hfd] at hkv; simp at hkv
      | some e =>
        rw [hfd] at hkv
        exact hcwf e (List.mem_of_find?_eq_some hfd) kv hkv
    rw [he] at hkeys
    exact hkeys hsl
  rw [if_neg (by rw [hnone]; simp)]

/-- Characterization of the back-fill loop: it leaves key well-formedness
intact, and the probed folder's hash set afterwards holds exactly the
hashes of the listed files plus whatever was there before. -/
theorem backfill_spec (hash : Content → σ) (w : World) (tf : String)
    (hsane : saneDir tf = true) (htf : tf.data ≠ []) :
    ∀ (names : List String) (c : Cache σ) (k0 : Nat), keysSlashFree c →
      (∀ n ∈ names, '/' ∉ n.data) →
      keysSlashFree ((names.map (joinPath tf)).foldl (backfillStep hash w) (c, k0)).1 ∧
      (∀ x, x ∈ (cacheEntry ((names.map (joinPath tf)).foldl (backfillStep hash w) (c, k0)).1 tf).1
        ↔ (∃ n ∈ names, hash (pyRead w (joinPath tf n)) = x) ∨ x ∈ (cacheEntry c tf).1) := by
  intro names
  induction names with
  | nil =>
    intro c k0 hc _
    refine ⟨hc, ?_⟩
    intro x
    simp
  | cons n ns ih =>
    intro c k0 hc hn
    have hnsl : '/' ∉ n.data := hn n (by simp)
    have hjsl : '/' ∈ (joinPath tf n).data := join_has_slash tf n htf hnsl
    have hdj : dirname (joinPath tf n) = tf := dirname_join tf n hsane hnsl
    have hbj : basename (joinPath tf n) = n := basename_join tf n hnsl
    have hadd := addFile_full hash w c (joinPath tf n) hjsl hc
    rw [hdj, hbj] at hadd
    have hstep : (((n :: ns).map (joinPath tf)).foldl (backfillStep hash w) (c, k0))
        = ((ns.map (joinPath tf)).foldl (backfillStep hash w)
            (backfillStep hash w (c, k0) (joinPath tf n))) := by
      rw [List.map_cons, List.foldl_cons]
    have hbf : backfillStep hash w (c, k0) (joinPath tf n)
        = (cacheSet c tf
            (insertHash (hash (pyRead w (joinPath tf n))) (cacheEntry c tf).1,
              upsert (cacheEntry c tf).2 n (hash (pyRead w (joinPath tf n)))), k0 + 1) := by
      unfold backfillStep
      rw [hadd]
    have hkeys : ∀ kv ∈ upsert (cacheEntry c tf).2 n (hash (pyRead w (joinPath tf n))),
        '/' ∉ kv.1.data := by
      refine upsert_keys_slashFree ?_ hnsl _
      intro kv hkv
      unfold cacheEntry at hkv
      cases hfd : c.find? (fun e => e.1 = tf) with
      | none => rw [hfd] at hkv; simp at hkv
      | some e =>
        rw [hfd] at hkv
        exact hc e (List.mem_of_find?_eq_some hfd) kv hkv
    have hcwf2 : keysSlashFree (cacheSet c tf
        (insertHash (hash (pyRead w (joinPath tf n))) (cacheEntry c tf).1,
          upsert (cacheEntry c tf).2 n (hash (pyRead w (joinPath tf n))))) :=
      keysSlashFree_cacheSet hc tf hkeys
    obtain ⟨ih1, ih2⟩ := ih _ (k0 + 1) hcwf2 (fun m hm => hn m (by simp [hm]))
    constructor
    · rw [hstep, hbf]
      exact ih1
    · intro x
      rw [hstep, hbf]
      rw [ih2 x]
      rw [cacheEntry_cacheSet, if_pos rfl]
      constructor
      · rintro (⟨m, hm, hx⟩ | hx)
        · exact Or.inl ⟨m, by simp [hm], hx⟩
        · rcases (mem_insertHash _ x _).mp hx with hx | hx
          · exact Or.inl ⟨n, by simp, hx.symm⟩
          · exact Or.inr hx
      · rintro (⟨m, hm, hx⟩ | hx)
        · rcases List.mem_cons.mp hm with hm | hm
          · subst hm
            exact Or.inr ((mem_insertHash _ x _).mpr (Or.inl hx.symm))
          · exact Or.inl ⟨m, hm, hx⟩
        · exact Or.inr ((mem_insertHash _ x _).mpr (Or.inr hx))

/-- Under a well-formed world and a sane folder string, the `isfile` filter
of `_files_in_folder` keeps every listed entry. -/
theorem files_in_folder_eq (w : World) (tf : String) (hwf : WFWorld w)
    (hsane : saneDir tf = true) :
    files_in_folder w tf = ((entriesOf w tf).map Prod.fst).map (joinPath tf) := by
  have hent : ∀ e, w.folders.find? (fun e => e.1 = tf) = some e → entriesOf w tf = e.2 := by
    intro e hf
    unfold entriesOf
    rw [hf]
  unfold files_in_folder listdir entriesOf
  cases hf : w.folders.find? (fun e => e.1 = tf) with
  | none => simp
  | some e =>
    obtain ⟨hnd, hsl⟩ := hwf e (List.mem_of_find?_eq_some hf)
    refine List.filter_eq_self.mpr ?_
    intro f hfm
    obtain ⟨n, hn, rfl⟩ := List.mem_map.mp hfm
    obtain ⟨nc, hnc, rfl⟩ := List.mem_map.mp hn
    have hncsl : '/' ∉ nc.1.data := hsl nc hnc
    unfold isfile fileContent
    rw [dirname_join tf nc.1 hsane hncsl, basename_join tf nc.1 hncsl, hent e hf,
      Option.isSome_map', List.find?_isSome]
    exact ⟨nc, hnc, by simp⟩

theorem entriesOf_wf (w : World) (tf : String) (hwf : WFWorld w) :
    ((entriesOf w tf).map Prod.fst).Nodup ∧ ∀ nc ∈ entriesOf w tf, '/' ∉ nc.1.data := by
  unfold entriesOf
  cases hf : w.folders.find? (fun e => e.1 = tf) with
  | none => simp
  | some e => exact hwf e (List.mem_of_find?_eq_some hf)

theorem pyRead_entry (w : World) (tf : String) (hsane : saneDir tf = true)
    (hnd : ((entriesOf w tf).map Prod.fst).Nodup) (nc : String × Content)
    (hnc : nc ∈ entriesOf w tf) (hsl : '/' ∉ nc.1.data) :
    pyRead w (joinPath tf nc.1) = nc.2 := by
  unfold pyRead fileContent
  rw [dirname_join _ _ hsane hsl, basename_join _ _ hsl,
    find?_eq_some_of_mem_nodup (entriesOf w tf) hnd nc.1 nc.2 (by simpa using hnc)]
  rfl

/-- Claim C1: Starting from a cache with no knowledge (the state at daemon
start), `has_file` answers true exactly when some file currently in the
queried folder has byte content identical to the candidate; in particular
for an empty folder, a nonexistent folder, or a folder whose enumeration
fails with OSError (all of which present as an empty entry list) it answers
false instead of failing.  Assumes the content digest is collision-free,
the negligible-risk reading the spec adopts. -/
theorem has_file_iff (hash : Content → σ) (hinj : Function.Injective hash)
    (w : World) (folder : String) (cand : Content) (hwf : WFWorld w) :
    ((has_file hash w [] folder cand).1 = true ↔
      ∃ nc ∈ entriesOf w (normpath folder), nc.2 = cand) ∧
    (entriesOf w (normpath folder) = [] → (has_file hash w [] folder cand).1 = false) := by
  have hsane := normpath_sane folder
  have hne := normpath_ne_empty folder
  have hfe := files_in_folder_eq w (normpath folder) hwf hsane
  obtain ⟨hnd, hsl⟩ := entriesOf_wf w (normpath folder) hwf
  have hnames : ∀ n ∈ (entriesOf w (normpath folder)).map Prod.fst, '/' ∉ n.data := by
    intro n hn
    obtain ⟨nc, hnc, rfl⟩ := List.mem_map.mp hn
    exact hsl nc hnc
  have hempty : keysSlashFree (([] : Cache σ)) := by
    intro e he
    exact absurd he (List.not_mem_nil e)
  obtain ⟨_, hmem⟩ := backfill_spec hash w (normpath folder) hsane hne
    ((entriesOf w (normpath folder)).map Prod.fst) [] 0 hempty hnames
  have hun : (has_file hash w [] folder cand).1
      = decide (hash cand ∈ (cacheEntry ((files_in_folder w (normpath folder)).foldl
          (backfillStep hash w) (([] : Cache σ), 0)).1 (normpath folder)).1) := rfl
  have hiff : (has_file hash w [] folder cand).1 = true ↔
      ∃ nc ∈ entriesOf w (normpath folder), nc.2 = cand := by
    rw [hun, hfe]
    rw [decide_eq_true_iff]
    rw [hmem (hash cand)]
    have hnilent : (cacheEntry (([] : Cache σ)) (normpath folder)).1 = [] := rfl
    rw [hnilent]
    simp only [List.not_mem_nil, or_false]
    constructor
    · rintro ⟨n, hn, heq⟩
      obtain ⟨nc, hnc, rfl⟩ := List.mem_map.mp hn
      rw [pyRead_entry w (normpath folder) hsane hnd nc hnc (hsl nc hnc)] at heq
      exact ⟨nc, hnc, hinj heq⟩
    · rintro ⟨nc, hnc, hcc⟩
      refine ⟨nc.1, List.mem_map.mpr ⟨nc, hnc, rfl⟩, ?_⟩
      rw [pyRead_entry w (normpath folder) hsane hnd nc hnc (hsl nc hnc), hcc]
  refine ⟨hiff, ?_⟩
  intro hem
  cases hb : (has_file hash w [] folder cand).1 with
  | false => rfl
  | true =>
    obtain ⟨nc, hnc, _⟩ := hiff.mp hb
    rw [hem] at hnc
    exact absurd hnc (List.not_mem_nil nc)

theorem has_file_iff_witness :
    (((has_file hashId wDup [] "d" [0]).1 = true ↔
        ∃ nc ∈ entriesOf wDup (normpath "d"), nc.2 = [0]) ∧
      (entriesOf wDup (normpath "d") = [] → (has_file hashId wDup [] "d" [0]).1 = false)) ∧
    (has_file hashId wEmptyFs [] "nope" [0]).1 = false :=
  ⟨has_file_iff hashId (fun _ _ h => h) wDup "d" [0] (by decide),
    (has_file_iff hashId (fun _ _ h => h) wEmptyFs "nope" [0] (by decide)).2 (by decide)⟩

/-- Repeated `has_file` calls against the same folder and candidate, with
the cache threaded through. -/
def hasFileIter (hash : Content → σ) (w : World) (folder : String) (cand : Content) :
    Nat → Cache σ
  | 0 => []
  | k + 1 => (has_file hash w (hasFileIter hash w folder cand k) folder cand).2.1

/-- Claim C10: `has_file` never indexes the candidate itself: every hash in
the queried folder's set comes from a file enumerated in that folder, so
when no file in the folder has the candidate's content, arbitrarily many
repeated queries (each reusing the cache the previous one returned) keep
answering false — a query cannot turn a non-duplicate into a duplicate. -/
theorem has_file_never_inserts_candidate (hash : Content → σ)
    (hinj : Function.Injective hash) (w : World) (folder : String) (cand : Content)
    (hwf : WFWorld w)
    (hnone : ∀ nc ∈ entriesOf w (normpath folder), ¬nc.2 = cand) :
    ∀ k, (has_file hash w (hasFileIter hash w folder cand k) folder cand).1 = false := by
  have hsane := normpath_sane folder
  have hne := normpath_ne_empty folder
  have hfe := files_in_folder_eq w (normpath folder) hwf hsane
  obtain ⟨hnd, hsl⟩ := entriesOf_wf w (normpath folder) hwf
  have hnames : ∀ n ∈ (entriesOf w (normpath folder)).map Prod.fst, '/' ∉ n.data := by
    intro n hn
    obtain ⟨nc, hnc, rfl⟩ := List.mem_map.mp hn
    exact hsl nc hnc
  have hinv : ∀ k, keysSlashFree (hasFileIter hash w folder cand k) ∧
      ∀ x ∈ (cacheEntry (hasFileIter hash w folder cand k) (normpath folder)).1,
        ∃ nc ∈ entriesOf w (normpath folder), hash nc.2 = x := by
    intro k
    induction k with
    | zero =>
      constructor
      · intro e he
        exact absurd he (List.not_mem_nil e)
      · intro x hx
        exact absurd hx (List.not_mem_nil x)
    | succ k ih =>
      obtain ⟨hwfk, hsetk⟩ := ih
      obtain ⟨hwf2, hmem⟩ := backfill_spec hash w (normpath folder) hsane hne
        ((entriesOf w (normpath folder)).map Prod.fst) (hasFileIter hash w folder cand k)
        0 hwfk hnames
      have hit : hasFileIter hash w folder cand (k + 1)
          = ((files_in_folder w (normpath folder)).foldl (backfillStep hash w)
              (hasFileIter hash w folder cand k, 0)).1 := rfl
      constructor
      · rw [hit, hfe]
        exact hwf2
      · intro x hx
        rw [hit, hfe] at hx
        rcases (hmem x).mp hx with ⟨n, hn, heq⟩ | hx2
        · obtain ⟨nc, hnc, rfl⟩ := List.mem_map.mp hn
          rw [pyRead_entry w (normpath folder) hsane hnd nc hnc (hsl nc hnc)] at heq
          exact ⟨nc, hnc, heq⟩
        · exact hsetk x hx2
  intro k
  have hun : (has_file hash w (hasFileIter hash w folder cand k) folder cand).1
      = decide (hash cand ∈
          (cacheEntry (hasFileIter hash w folder cand (k + 1)) (normpath folder)).1) := rfl
  rw [hun]
  apply decide_eq_false
  intro hmem
  obtain ⟨nc, hnc, heq⟩ := (hinv (k + 1)).2 (hash cand) hmem
  exact hnone nc hnc (hinj heq)

theorem has_file_never_inserts_candidate_witness :
    (has_file hashId wDup (hasFileIter hashId wDup "d" [9] 2) "d" [9]).1 = false :=
  has_file_never_inserts_candidate hashId (fun _ _ h => h) wDup "d" [9]
    (by decide) (by decide) 2

end HashLemmas

/-! ### C6: destination layout on a fresh folder -/

theorem natRepr_head (n : Nat) : ∃ c, (natRepr n).data.head? = some c ∧ ¬c = '/' := by
  cases hd : (natRepr n).data with
  | nil => exact absurd hd (natRepr_ne_empty n)
  | cons c t =>
    refine ⟨c, rfl, ?_⟩
    intro hc
    apply slash_not_mem_natRepr n
    rw [hd, hc]
    simp

theorem natRepr_last (n : Nat) : ∃ c, (natRepr n).data.reverse.head? = some c ∧ ¬c = '/' := by
  cases hd : (natRepr n).data.reverse with
  | nil =>
    exfalso
    exact natRepr_ne_empty n (by simpa using congrArg List.reverse hd)
  | cons c t =>
    refine ⟨c, rfl, ?_⟩
    intro hc
    apply slash_not_mem_natRepr n
    rw [← List.mem_reverse, hd, hc]
    simp

theorem headNotSlash (s t : String) (h : ∃ c, s.data.head? = some c ∧ ¬c = '/') :
    ∃ c, (s ++ t).data.head? = some c ∧ ¬c = '/' := by
  obtain ⟨c, hc, hcs⟩ := h
  exact ⟨c, by rw [String.data_append]; exact head?_append_left _ hc, hcs⟩

theorem lastNotSlash (s t : String) (h : ∃ c, t.data.reverse.head? = some c ∧ ¬c = '/') :
    ∃ c, (s ++ t).data.reverse.head? = some c ∧ ¬c = '/' := by
  obtain ⟨c, hc, hcs⟩ := h
  refine ⟨c, ?_, hcs⟩
  rw [String.data_append, List.reverse_append]
  exact head?_append_left _ hc

theorem pad2_last (n : Nat) : ∃ c, (pad2 n).data.reverse.head? = some c ∧ ¬c = '/' := by
  unfold pad2
  by_cases h : n < 10
  · rw [if_pos h]
    exact lastNotSlash "0" _ (natRepr_last n)
  · rw [if_neg h]
    exact natRepr_last n

theorem head_ne_of_exists {s : String} (h : ∃ c, s.data.head? = some c ∧ ¬c = '/') :
    ¬s.data.head? = some '/' := by
  obtain ⟨c, hc, hcs⟩ := h
  rw [hc]
  intro he
  exact hcs (by simpa using he)

theorem last_ne_of_exists {s : String} (h : ∃ c, s.data.reverse.head? = some c ∧ ¬c = '/') :
    ¬s.data.reverse.head? = some '/' := by
  obtain ⟨c, hc, hcs⟩ := h
  rw [hc]
  intro he
  exact hcs (by simpa using he)

/-- Claim C6: Planning against a world where the planned path is still free
yields exactly `root/YYYY/YYYY-MM/"YYYY-MM-DD HH.MM.SS" + ext` with the
original extension lower-cased and no collision suffix.  `root` is assumed
nonempty and without a trailing slash, as for a real archive root. -/
theorem plan_fresh_folder_layout (w : World) (root : String) (dt : DateTime) (path : String)
    (hr1 : ¬root.data = []) (hr2 : ¬root.data.reverse.head? = some '/')
    (hfresh : pathExists w (path_from_datetime root dt path) = false) :
    resolve_duplicate w (path_from_datetime root dt path)
      = root ++ "/" ++ natRepr dt.year ++ "/" ++ natRepr dt.year ++ "-" ++ pad2 dt.month
        ++ "/" ++ natRepr dt.year ++ "-" ++ pad2 dt.month ++ "-" ++ pad2 dt.day ++ " "
        ++ pad2 dt.hour ++ "." ++ pad2 dt.minute ++ "." ++ pad2 dt.second
        ++ asciiLower (splitext path).2 := by
  have hres : resolve_duplicate w (path_from_datetime root dt path)
      = path_from_datetime root dt path := by
    unfold resolve_duplicate
    rw [if_neg (by simp [hfresh])]
  rw [hres]
  unfold path_from_datetime
  have hFhead : ∃ c, (folder_from_datetime dt).data.head? = some c ∧ ¬c = '/' := by
    unfold folder_from_datetime
    exact headNotSlash _ _ (headNotSlash _ _ (headNotSlash _ _ (headNotSlash _ _
      (natRepr_head dt.year))))
  have hFlast : ∃ c, (folder_from_datetime dt).data.reverse.head? = some c ∧ ¬c = '/' := by
    unfold folder_from_datetime
    exact lastNotSlash _ _ (pad2_last dt.month)
  have hNhead : ∃ c, (filename_from_datetime dt path).data.head? = some c ∧ ¬c = '/' := by
    unfold filename_from_datetime basename_from_datetime
    refine headNotSlash _ _ ?_
    exact headNotSlash _ _ (headNotSlash _ _ (headNotSlash _ _ (headNotSlash _ _
      (headNotSlash _ _ (headNotSlash _ _ (headNotSlash _ _ (headNotSlash _ _
        (headNotSlash _ _ (headNotSlash _ _ (natRepr_head dt.year))))))))))
  have h1 : joinPath root (folder_from_datetime dt) = root ++ "/" ++ folder_from_datetime dt :=
    join_eq_append root _ hr1 hr2 (head_ne_of_exists hFhead)
  rw [h1]
  have h2 : joinPath (root ++ "/" ++ folder_from_datetime dt) (filename_from_datetime dt path)
      = (root ++ "/" ++ folder_from_datetime dt) ++ "/" ++ filename_from_datetime dt path := by
    refine join_eq_append _ _ ?_ ?_ (head_ne_of_exists hNhead)
    · rw [String.data_append]
      intro hcon
      exact hr1 (List.append_eq_nil.mp (List.append_eq_nil.mp hcon).1).1
    · exact last_ne_of_exists (lastNotSlash _ _ hFlast)
  rw [h2]
  apply String.ext
  unfold folder_from_datetime filename_from_datetime basename_from_datetime
  simp only [String.data_append, List.append_assoc]

def dt2004 : DateTime := ⟨2004, 5, 7, 20, 16, 31⟩

theorem plan_fresh_folder_layout_witness :
    resolve_duplicate wEmptyFs (path_from_datetime "/r" dt2004 "s/IMG.JPG")
      = "/r" ++ "/" ++ natRepr dt2004.year ++ "/" ++ natRepr dt2004.year ++ "-"
        ++ pad2 dt2004.month ++ "/" ++ natRepr dt2004.year ++ "-" ++ pad2 dt2004.month ++ "-"
        ++ pad2 dt2004.day ++ " " ++ pad2 dt2004.hour ++ "." ++ pad2 dt2004.minute ++ "."
        ++ pad2 dt2004.second ++ asciiLower (splitext "s/IMG.JPG").2 ∧
    resolve_duplicate wEmptyFs (path_from_datetime "/r" dt2004 "s/IMG.JPG")
      = "/r/2004/2004-05/2004-05-07 20.16.31.jpg" :=
  ⟨plan_fresh_folder_layout wEmptyFs "/r" dt2004 "s/IMG.JPG" (by decide) (by decide) (by decide),
    by decide⟩

/-! ### C5: processing the same still-present path twice -/

theorem find?_assocSet {β : Type} (l : List (String × β)) (k k' : String) (v : β) :
    ((if (l.find? (fun e => e.1 = k)).isSome then
        l.map (fun e => if e.1 = k then (e.1, v) else e)
      else (k, v) :: l).find? (fun e => e.1 = k'))
    = if k' = k then some (k, v) else l.find? (fun e => e.1 = k') := by
  by_cases hs : (l.find? (fun e => e.1 = k)).isSome = true
  · rw [if_pos hs, find?_keyupdate]
    by_cases hf : k' = k
    · rw [if_pos hf]
      subst hf
      cases hfd : l.find? (fun e => e.1 = k') with
      | none => rw [hfd] at hs; simp at hs
      | some e =>
        have : e.1 = k' := by simpa using List.find?_some hfd
        simp [this]
    · rw [if_neg hf]
      cases hfd : l.find? (fun e => e.1 = k') with
      | none => rfl
      | some e =>
        have : e.1 = k' := by simpa using List.find?_some hfd
        simp [this, hf]
  · rw [if_neg hs]
    by_cases hf : k' = k
    · subst hf
      rw [if_pos rfl, List.find?_cons_of_pos _ (by simp)]
    · rw [if_neg hf, List.find?_cons_of_neg _ (by simp; exact fun h => hf h.symm)]

theorem folders_putEntries (w : World) (f : String) (es : List (String × Content)) :
    (putEntries w f es).folders
      = if (w.folders.find? (fun e => e.1 = f)).isSome then
          w.folders.map (fun e => if e.1 = f then (e.1, es) else e)
        else (f, es) :: w.folders := by
  unfold putEntries
  by_cases h : (w.folders.find? (fun e => e.1 = f)).isSome = true
  · rw [if_pos h, if_pos h]
  · rw [if_neg h, if_neg h]

theorem find?_putEntries (w : World) (f f' : String) (es : List (String × Content)) :
    (putEntries w f es).folders.find? (fun e => e.1 = f')
      = if f' = f then some (f, es) else w.folders.find? (fun e => e.1 = f') := by
  rw [folders_putEntries]
  exact find?_assocSet w.folders f f' es

theorem entriesOf_putEntries (w : World) (f f' : String) (es : List (String × Content)) :
    entriesOf (putEntries w f es) f' = if f' = f then es else entriesOf w f' := by
  unfold entriesOf
  rw [find?_putEntries]
  by_cases h : f' = f
  · rw [if_pos h, if_pos h]
  · rw [if_neg h, if_neg h]

theorem hasFolder_putEntries (w : World) (f f' : String) (es : List (String × Content)) :
    hasFolder (putEntries w f es) f' = if f' = f then true else hasFolder w f' := by
  unfold hasFolder
  rw [find?_putEntries]
  by_cases h : f' = f
  · rw [if_pos h, if_pos h]
    rfl
  · rw [if_neg h, if_neg h]

theorem listdir_eq (w : World) (f : String) :
    listdir w f = if hasFolder w f then some ((entriesOf w f).map Prod.fst) else none := by
  unfold listdir hasFolder entriesOf
  cases hf : w.folders.find? (fun e => e.1 = f) with
  | none => rfl
  | some e => rfl

theorem exif_putEntries (w : World) (f : String) (es : List (String × Content)) :
    (putEntries w f es).exif = w.exif := by
  unfold putEntries
  by_cases h : (w.folders.find? (fun e => e.1 = f)).isSome = true
  · rw [if_pos h]
  · rw [if_neg h]

theorem mtime_putEntries (w : World) (f : String) (es : List (String × Content)) :
    (putEntries w f es).mtime = w.mtime := by
  unfold putEntries
  by_cases h : (w.folders.find? (fun e => e.1 = f)).isSome = true
  · rw [if_pos h]
  · rw [if_neg h]

theorem exif_makedirs (w : World) (f : String) : (makedirs w f).exif = w.exif := by
  unfold makedirs
  by_cases h : hasFolder w f = true
  · rw [if_pos h]
  · rw [if_neg h]

theorem mtime_makedirs (w : World) (f : String) : (makedirs w f).mtime = w.mtime := by
  unfold makedirs
  by_cases h : hasFolder w f = true
  · rw [if_pos h]
  · rw [if_neg h]

/-- The function `creation_date` consults only the EXIF and mtime oracles, never the
folder structure. -/
theorem creation_date_congr (w w' : World) (path : String)
    (he : w'.exif path = w.exif path) (hm : w'.mtime path = w.mtime path) :
    creation_date w' path = creation_date w path := by
  unfold creation_date exif_creation_date exif_creation_timestamp file_creation_date
  rw [he, hm]

theorem entriesOf_makedirs_ne (w : World) (f f' : String) (h : ¬f' = f) :
    entriesOf (makedirs w f) f' = entriesOf w f' := by
  unfold makedirs
  by_cases hh : hasFolder w f = true
  · rw [if_pos hh]
  · rw [if_neg hh]
    unfold entriesOf
    rw [List.find?_cons_of_neg _ (by simp; exact fun hc => h hc.symm)]

theorem entriesOf_makedirs_self (w : World) (f : String) (h : entriesOf w f = []) :
    entriesOf (makedirs w f) f = [] := by
  unfold makedirs
  by_cases hh : hasFolder w f = true
  · rw [if_pos hh]
    exact h
  · rw [if_neg hh]
    unfold entriesOf
    rw [List.find?_cons_of_pos _ (by simp)]

theorem hasFolder_makedirs_self (w : World) (f : String) :
    hasFolder (makedirs w f) f = true := by
  unfold makedirs
  by_cases hh : hasFolder w f = true
  · rw [if_pos hh]
    exact hh
  · rw [if_neg hh]
    unfold hasFolder
    rw [List.find?_cons_of_pos _ (by simp)]
    rfl

theorem WFWorld_putEntries {w : World} (hwf : WFWorld w) (f : String)
    {es : List (String × Content)} (hnd : (es.map Prod.fst).Nodup)
    (hsl : ∀ nc ∈ es, '/' ∉ nc.1.data) : WFWorld (putEntries w f es) := by
  intro e he
  rw [folders_putEntries] at he
  by_cases hs : (w.folders.find? (fun e => e.1 = f)).isSome = true
  · rw [if_pos hs] at he
    obtain ⟨x, hx, hmap⟩ := List.mem_map.mp he
    by_cases hxf : x.1 = f
    · rw [if_pos hxf] at hmap
      rw [← hmap]
      exact ⟨hnd, hsl⟩
    · rw [if_neg hxf] at hmap
      exact hmap ▸ hwf x hx
  · rw [if_neg hs] at he
    rcases List.mem_cons.mp he with he | he
    · rw [he]
      exact ⟨hnd, hsl⟩
    · exact hwf e he

theorem WFWorld_makedirs {w : World} (hwf : WFWorld w) (f : String) :
    WFWorld (makedirs w f) := by
  unfold makedirs
  by_cases hh : hasFolder w f = true
  · rw [if_pos hh]
    exact hwf
  · rw [if_neg hh]
    intro e he
    rcases List.mem_cons.mp he with he | he
    · rw [he]
      exact ⟨by simp, by simp⟩
    · exact hwf e he

theorem filter_entry_props {w : World} (hwf : WFWorld w) (f n : String) :
    (((entriesOf w f).filter (fun nc => !decide (nc.1 = n))).map Prod.fst).Nodup ∧
    (∀ nc ∈ (entriesOf w f).filter (fun nc => !decide (nc.1 = n)), '/' ∉ nc.1.data) ∧
    n ∉ ((entriesOf w f).filter (fun nc => !decide (nc.1 = n))).map Prod.fst := by
  obtain ⟨hnd, hsl⟩ := entriesOf_wf w f hwf
  refine ⟨?_, ?_, ?_⟩
  · exact hnd.sublist (List.Sublist.map Prod.fst (List.filter_sublist _))
  · intro nc hnc
    exact hsl nc (List.mem_of_mem_filter hnc)
  · intro hmem
    obtain ⟨nc, hnc, hfst⟩ := List.mem_map.mp hmem
    have := List.of_mem_filter hnc
    rw [hfst] at this
    simp at this

theorem WFWorld_addEntry {w : World} (hwf : WFWorld w) (f n : String) (c : Content)
    (hn : '/' ∉ n.data) : WFWorld (addEntry w f n c) := by
  obtain ⟨h1, h2, h3⟩ := filter_entry_props hwf f n
  refine WFWorld_putEntries hwf f ?_ ?_
  · rw [List.map_cons]
    exact List.nodup_cons.mpr ⟨h3, h1⟩
  · intro nc hnc
    rcases List.mem_cons.mp hnc with hnc | hnc
    · rw [hnc]
      exact hn
    · exact h2 nc hnc

theorem WFWorld_removeEntry {w : World} (hwf : WFWorld w) (f n : String) :
    WFWorld (removeEntry w f n) := by
  obtain ⟨h1, h2, _⟩ := filter_entry_props hwf f n
  exact WFWorld_putEntries hwf f h1 h2

theorem WFWorld_shutilMove {w : World} (hwf : WFWorld w) (src dst : String) :
    WFWorld (shutilMove w src dst) :=
  WFWorld_addEntry (WFWorld_removeEntry hwf _ _) _ _ _ (basename_slashFree dst)

/-- The probe loop only ever returns suffixed candidates. -/
theorem dedupProbe_shape (w : World) (dn fn ext : String) :
    ∀ (fuel i : Nat), ∃ n, dedupProbe w dn fn ext fuel i = dedupCand dn fn ext n := by
  intro fuel
  induction fuel with
  | zero => intro i; exact ⟨i, rfl⟩
  | succ f ih =>
    intro i
    have hstep0 : dedupProbe w dn fn ext (f + 1) i
        = if pathExists w (dedupCand dn fn ext i) = true then
            dedupProbe w dn fn ext f (i + 1)
          else dedupCand dn fn ext i := rfl
    by_cases hi : pathExists w (dedupCand dn fn ext i) = true
    · obtain ⟨n, hn⟩ := ih (i + 1)
      exact ⟨n, by rw [hstep0, if_pos hi]; exact hn⟩
    · exact ⟨i, by rw [hstep0, if_neg hi]⟩

/-- Claim C5: Processing the same still-present source path twice creates at
most one destination file.  Against a world where the planned destination is
free and its folder holds no files, the first `move_file` run plans the
unsuffixed path, finds no duplicate, creates the folder and moves the file
there, leaving content-identical bytes at the destination.  If the source
path is present again with the same content (the world
`addEntry w1 (dirname path) (basename path) cc`), the second run takes the
dedup-skip branch: the world is returned untouched and the run emits no
`mkdirs` and no `moved` event — in particular no collision-renamed copy. -/
theorem process_twice_dedup_skips {σ : Type} [DecidableEq σ] (hash : Content → σ)
    (w : World) (root path : String) (cc : Content) (dt : DateTime)
    (hwf : WFWorld w)
    (hread : fileContent w path = some cc)
    (hval : is_valid_filename path = true)
    (hcd : creation_date w path = Except.ok dt)
    (hfresh : pathExists w (path_from_datetime root dt path) = false)
    (hFne : ¬(dirname (path_from_datetime root dt path)).data = [])
    (hnorm : normpath (dirname (path_from_datetime root dt path))
        = dirname (path_from_datetime root dt path))
    (hdiff : ¬dirname path = dirname (path_from_datetime root dt path))
    (hempty : entriesOf w (dirname (path_from_datetime root dt path)) = []) :
    move_file hash root path w []
      = Except.ok
          (shutilMove (makedirs w (dirname (path_from_datetime root dt path))) path
            (path_from_datetime root dt path), ([] : Cache σ),
          [Event.planned (path_from_datetime root dt path), Event.hashed 0,
            Event.mkdirs (dirname (path_from_datetime root dt path)),
            Event.moved path (path_from_datetime root dt path)]) ∧
    fileContent
      (shutilMove (makedirs w (dirname (path_from_datetime root dt path))) path
        (path_from_datetime root dt path))
      (path_from_datetime root dt path) = some cc ∧
    (∃ (c2 : Cache σ) (k : Nat) (dst2 : String),
      move_file hash root path
        (addEntry
          (shutilMove (makedirs w (dirname (path_from_datetime root dt path))) path
            (path_from_datetime root dt path))
          (dirname path) (basename path) cc) []
        = Except.ok
            (addEntry
              (shutilMove (makedirs w (dirname (path_from_datetime root dt path))) path
                (path_from_datetime root dt path))
              (dirname path) (basename path) cc, c2,
            [Event.planned dst2, Event.hashed k])) := by
  have hsaneF : saneDir (dirname (path_from_datetime root dt path)) = true :=
    dirname_sane (path_from_datetime root dt path)
  have hdiff' : ¬dirname (path_from_datetime root dt path) = dirname path :=
    fun h => hdiff h.symm
  have hPexists1 : pathExists w path = true := by
    unfold pathExists isfile
    rw [hread]
    rfl
  have hres1 : resolve_duplicate w (path_from_datetime root dt path)
      = path_from_datetime root dt path := by
    unfold resolve_duplicate
    rw [if_neg (by simp [hfresh])]
  have hpyr1 : pyRead w path = cc := by
    unfold pyRead
    rw [hread]
    rfl
  have hfif1 : files_in_folder w (normpath (dirname (path_from_datetime root dt path))) = [] := by
    rw [hnorm, files_in_folder_eq w _ hwf hsaneF, hempty]
    rfl
  have hhf1 : has_file hash w ([] : Cache σ) (dirname (path_from_datetime root dt path))
      (pyRead w path) = (false, [], 0) := by
    unfold has_file
    dsimp only
    rw [hfif1]
    rfl
  have hrun1 : move_file hash root path w ([] : Cache σ)
      = Except.ok
          (shutilMove (makedirs w (dirname (path_from_datetime root dt path))) path
            (path_from_datetime root dt path), ([] : Cache σ),
          [Event.planned (path_from_datetime root dt path), Event.hashed 0,
            Event.mkdirs (dirname (path_from_datetime root dt path)),
            Event.moved path (path_from_datetime root dt path)]) := by
    unfold move_file
    rw [if_neg (by simp [hPexists1]), if_neg (by simp [hval]), hcd]
    dsimp only
    rw [hres1, hhf1]
    rfl
  -- Content of the destination after run 1.
  have hpyrM : pyRead (makedirs w (dirname (path_from_datetime root dt path))) path = cc := by
    unfold pyRead fileContent
    rw [entriesOf_makedirs_ne w _ _ hdiff]
    unfold pyRead fileContent at hpyr1
    exact hpyr1
  have hentw1F : entriesOf
      (shutilMove (makedirs w (dirname (path_from_datetime root dt path))) path
        (path_from_datetime root dt path))
      (dirname (path_from_datetime root dt path))
      = [(basename (path_from_datetime root dt path), cc)] := by
    unfold shutilMove addEntry removeEntry
    rw [hpyrM, entriesOf_putEntries, if_pos rfl, entriesOf_putEntries, if_neg hdiff',
      entriesOf_makedirs_self w _ hempty]
    rfl
  have hfc1 : fileContent
      (shutilMove (makedirs w (dirname (path_from_datetime root dt path))) path
        (path_from_datetime root dt path))
      (path_from_datetime root dt path) = some cc := by
    unfold fileContent
    rw [hentw1F, List.find?_cons_of_pos _ (by simp)]
    rfl
  refine ⟨hrun1, hfc1, ?_⟩
  -- Run 2 against the world with the source re-created.
  have hw2wf : WFWorld (addEntry
      (shutilMove (makedirs w (dirname (path_from_datetime root dt path))) path
        (path_from_datetime root dt path))
      (dirname path) (basename path) cc) :=
    WFWorld_addEntry
      (WFWorld_shutilMove (WFWorld_makedirs hwf _) _ _) _ _ _ (basename_slashFree path)
  have hentw2F : entriesOf (addEntry
      (shutilMove (makedirs w (dirname (path_from_datetime root dt path))) path
        (path_from_datetime root dt path))
      (dirname path) (basename path) cc)
      (dirname (path_from_datetime root dt path))
      = [(basename (path_from_datetime root dt path), cc)] := by
    unfold addEntry
    rw [entriesOf_putEntries, if_neg hdiff']
    exact hentw1F
  have hread2 : fileContent (addEntry
      (shutilMove (makedirs w (dirname (path_from_datetime root dt path))) path
        (path_from_datetime root dt path))
      (dirname path) (basename path) cc) path = some cc := by
    unfold fileContent addEntry
    rw [entriesOf_putEntries, if_pos rfl, List.find?_cons_of_pos _ (by simp)]
    rfl
  have hex2 : pathExists (addEntry
      (shutilMove (makedirs w (dirname (path_from_datetime root dt path))) path
        (path_from_datetime root dt path))
      (dirname path) (basename path) cc) path = true := by
    unfold pathExists isfile
    rw [hread2]
    rfl
  have hpyr2 : pyRead (addEntry
      (shutilMove (makedirs w (dirname (path_from_datetime root dt path))) path
        (path_from_datetime root dt path))
      (dirname path) (basename path) cc) path = cc := by
    unfold pyRead
    rw [hread2]
    rfl
  have hcd2 : creation_date (addEntry
      (shutilMove (makedirs w (dirname (path_from_datetime root dt path))) path
        (path_from_datetime root dt path))
      (dirname path) (basename path) cc) path = Except.ok dt := by
    have hexif : (addEntry
        (shutilMove (makedirs w (dirname (path_from_datetime root dt path))) path
          (path_from_datetime root dt path))
        (dirname path) (basename path) cc).exif = w.exif := by
      unfold shutilMove addEntry removeEntry
      rw [exif_putEntries, exif_putEntries, exif_putEntries, exif_makedirs]
    have hmt : (addEntry
        (shutilMove (makedirs w (dirname (path_from_datetime root dt path))) path
          (path_from_datetime root dt path))
        (dirname path) (basename path) cc).mtime = w.mtime := by
      unfold shutilMove addEntry removeEntry
      rw [mtime_putEntries, mtime_putEntries, mtime_putEntries, mtime_makedirs]
    rw [creation_date_congr w _ path (congrFun hexif path) (congrFun hmt path)]
    exact hcd
  have hexP2 : pathExists (addEntry
      (shutilMove (makedirs w (dirname (path_from_datetime root dt path))) path
        (path_from_datetime root dt path))
      (dirname path) (basename path) cc) (path_from_datetime root dt path) = true := by
    unfold pathExists isfile fileContent
    rw [hentw2F, List.find?_cons_of_pos _ (by simp)]
    rfl
  obtain ⟨n, hn⟩ := dedupProbe_shape (addEntry
      (shutilMove (makedirs w (dirname (path_from_datetime root dt path))) path
        (path_from_datetime root dt path))
      (dirname path) (basename path) cc)
    (dirname (path_from_datetime root dt path))
    (splitext (basename (path_from_datetime root dt path))).1
    (splitext (basename (path_from_datetime root dt path))).2
    (numPaths (addEntry
      (shutilMove (makedirs w (dirname (path_from_datetime root dt path))) path
        (path_from_datetime root dt path))
      (dirname path) (basename path) cc) + 1) 1
  have hres2 : resolve_duplicate (addEntry
      (shutilMove (makedirs w (dirname (path_from_datetime root dt path))) path
        (path_from_datetime root dt path))
      (dirname path) (basename path) cc) (path_from_datetime root dt path)
      = dedupCand (dirname (path_from_datetime root dt path))
          (splitext (basename (path_from_datetime root dt path))).1
          (splitext (basename (path_from_datetime root dt path))).2 n := by
    unfold resolve_duplicate
    rw [if_pos hexP2]
    exact hn
  have hnm_slashFree : '/' ∉ (dedupName
      (splitext (basename (path_from_datetime root dt path))).1
      (splitext (basename (path_from_datetime root dt path))).2 n).data := by
    refine dedupName_slashFree _ _ ?_ ?_ n
    · intro hm
      exact basename_slashFree (path_from_datetime root dt path)
        (splitext_fst_subset (basename (path_from_datetime root dt path)) hm)
    · exact splitext_snd_slashFree (basename (path_from_datetime root dt path))
  have hdirdst2 : dirname (dedupCand (dirname (path_from_datetime root dt path))
      (splitext (basename (path_from_datetime root dt path))).1
      (splitext (basename (path_from_datetime root dt path))).2 n)
      = dirname (path_from_datetime root dt path) := by
    unfold dedupCand
    exact dirname_join _ _ hsaneF hnm_slashFree
  -- Run 2's has_file sees the file moved by run 1 and reports a duplicate.
  have hfif2 : files_in_folder (addEntry
      (shutilMove (makedirs w (dirname (path_from_datetime root dt path))) path
        (path_from_datetime root dt path))
      (dirname path) (basename path) cc)
      (normpath (dirname (path_from_datetime root dt path)))
      = [joinPath (dirname (path_from_datetime root dt path))
          (basename (path_from_datetime root dt path))] := by
    rw [hnorm, files_in_folder_eq _ _ hw2wf hsaneF, hentw2F]
    rfl
  have hpyrJ : pyRead (addEntry
      (shutilMove (makedirs w (dirname (path_from_datetime root dt path))) path
        (path_from_datetime root dt path))
      (dirname path) (basename path) cc)
      (joinPath (dirname (path_from_datetime root dt path))
        (basename (path_from_datetime root dt path))) = cc := by
    have hnd2 : ((entriesOf (addEntry
        (shutilMove (makedirs w (dirname (path_from_datetime root dt path))) path
          (path_from_datetime root dt path))
        (dirname path) (basename path) cc)
        (dirname (path_from_datetime root dt path))).map Prod.fst).Nodup := by
      rw [hentw2F]
      simp
    exact pyRead_entry _ _ hsaneF hnd2
      (basename (path_from_datetime root dt path), cc) (by rw [hentw2F]; simp)
      (basename_slashFree (path_from_datetime root dt path))
  have hhf2 : has_file hash (addEntry
      (shutilMove (makedirs w (dirname (path_from_datetime root dt path))) path
        (path_from_datetime root dt path))
      (dirname path) (basename path) cc) ([] : Cache σ)
      (dirname (path_from_datetime root dt path))
      (pyRead (addEntry
        (shutilMove (makedirs w (dirname (path_from_datetime root dt path))) path
          (path_from_datetime root dt path))
        (dirname path) (basename path) cc) path)
      = (true,
          cacheSet [] (dirname (path_from_datetime root dt path))
            (insertHash (hash cc) [],
              upsert [] (basename (path_from_datetime root dt path)) (hash cc)), 1) := by
    have hjsl : '/' ∈ (joinPath (dirname (path_from_datetime root dt path))
        (basename (path_from_datetime root dt path))).data :=
      join_has_slash _ _ hFne (basename_slashFree (path_from_datetime root dt path))
    have hempty' : keysSlashFree (([] : Cache σ)) := by
      intro e he
      exact absurd he (List.not_mem_nil e)
    have hadd := addFile_full hash (addEntry
        (shutilMove (makedirs w (dirname (path_from_datetime root dt path))) path
          (path_from_datetime root dt path))
        (dirname path) (basename path) cc) ([] : Cache σ)
      (joinPath (dirname (path_from_datetime root dt path))
        (basename (path_from_datetime root dt path))) hjsl hempty'
    rw [dirname_join _ _ hsaneF (basename_slashFree (path_from_datetime root dt path)),
      basename_join _ _ (basename_slashFree (path_from_datetime root dt path)), hpyrJ] at hadd
    unfold has_file
    dsimp only
    rw [hfif2]
    rw [List.foldl_cons, List.foldl_nil]
    unfold backfillStep
    rw [hadd]
    rw [hpyr2, hnorm]
    rw [cacheEntry_cacheSet, if_pos rfl]
    have hcent : cacheEntry (([] : Cache σ)) (dirname (path_from_datetime root dt path))
        = ([], []) := rfl
    rw [hcent]
    have hmem : hash cc ∈ insertHash (hash cc) [] := by
      unfold insertHash
      simp
    simp [hmem]
  refine ⟨cacheSet [] (dirname (path_from_datetime root dt path))
      (insertHash (hash cc) [],
        upsert [] (basename (path_from_datetime root dt path)) (hash cc)), 1,
    dedupCand (dirname (path_from_datetime root dt path))
      (splitext (basename (path_from_datetime root dt path))).1
      (splitext (basename (path_from_datetime root dt path))).2 n, ?_⟩
  unfold move_file
  rw [if_neg (by simp [hex2]), if_neg (by simp [hval]), hcd2]
  dsimp only
  rw [hres2, hdirdst2, hhf2]
  rfl

theorem process_twice_dedup_skips_witness :
    ∃ (c2 : Cache Content) (k : Nat) (dst2 : String),
      move_file hashId "/r" "src/a.jpg"
        (addEntry
          (shutilMove (makedirs wSrc (dirname (path_from_datetime "/r" dt2004 "src/a.jpg")))
            "src/a.jpg" (path_from_datetime "/r" dt2004 "src/a.jpg"))
          (dirname "src/a.jpg") (basename "src/a.jpg") [5]) []
        = Except.ok
            (addEntry
              (shutilMove (makedirs wSrc (dirname (path_from_datetime "/r" dt2004 "src/a.jpg")))
                "src/a.jpg" (path_from_datetime "/r" dt2004 "src/a.jpg"))
              (dirname "src/a.jpg") (basename "src/a.jpg") [5], c2,
            [Event.planned dst2, Event.hashed k]) :=
  (process_twice_dedup_skips hashId wSrc "/r" "src/a.jpg" [5] dt2004 (by decide) (by decide)
    (by decide) (by decide) (by decide) (by decide) (by decide) (by decide) (by decide)).2.2

end Photosorter
